import Mathlib

/-!
Verification of the Swift LTO cross-module dead-symbol elimination pipeline:
the module-summary data model, the indexer (`ModuleSummaryIndexer.cpp`) and
the whole-program liveness engine (`cross_module_opt_main.cpp`).

The summary data model (`ModuleSummary.h`) is not among the translated
sources; its operations are modelled from the specification (§3): `functions`
is a mapping `GUID → FunctionSummary` (association list, lookup by first
match), `implementations` a mapping `VirtualMethodSlot → set of GUID`, and
`usedTypes` a set of GUIDs recorded as the sequence of insertions.
-/

namespace ModuleSummary

/-- GUIDs are 64-bit unsigned values. -/
abbrev GUID := Nat

/-- Modelled from the spec: `guid(name)` is a fixed 64-bit reduction of the
MD5 digest of the name's bytes (§4.1).  MD5 itself lives outside the
translated sources (`llvm::MD5Hash`); a fixed deterministic stand-in hash of
the UTF-8 bytes is used.  Every claim depends only on the map from names to
GUIDs being a fixed pure function. -/
def getGUIDFromUniqueName (name : String) : GUID :=
  name.toUTF8.foldl (fun h b => (h * 131 + b.toNat) % 2 ^ 64) 5381

/-- Call kinds, `FunctionSummary::Call::Kind` (the `kindCount` sentinel is not
a value). -/
inductive CallKind where
  | Direct
  | Witness
  | VTable
deriving DecidableEq, Repr

/-- A call edge, `FunctionSummary::Call`: a call edge with callee GUID, diagnostic name
and kind. -/
structure Call where
  callee : GUID
  calleeName : String
  kind : CallKind
deriving DecidableEq, Repr

/-- Slot kinds, `VFuncSlot::KindTy` / `VirtualMethodSlot::KindTy`. -/
inductive SlotKind where
  | Witness
  | VTable
deriving DecidableEq, Repr

/-- Key of the implementations table, `VFuncSlot` / `VirtualMethodSlot`;
equality is structural on (kind, guid). -/
structure VFuncSlot where
  kind : SlotKind
  guid : GUID
deriving DecidableEq, Repr

/-- Modelled from the spec: `FunctionSummary` (§3) — guid, diagnostic name,
`live` and `preserved` flags, ordered call list and type references. -/
structure FunctionSummary where
  guid : GUID
  name : String := ""
  live : Bool := false
  preserved : Bool := false
  calls : List Call := []
  typeRefs : List GUID := []
deriving DecidableEq, Repr

/-- Modelled from the spec: `ModuleSummaryIndex` (§3) — module name, the
function map, the virtual-slot implementation map and the used-type set
(recorded as the sequence of insertions, newest first). -/
structure ModuleSummaryIndex where
  name : String := ""
  functions : List (GUID × FunctionSummary) := []
  implementations : List (VFuncSlot × List GUID) := []
  usedTypes : List GUID := []
deriving DecidableEq, Repr

/-- Lookup in a `GUID → FunctionSummary` association list (first match). -/
def lookupFn (fns : List (GUID × FunctionSummary)) (g : GUID) :
    Option FunctionSummary :=
  (fns.find? (fun p => p.1 == g)).map (·.2)

/-- Modelled from the spec: `ModuleSummaryIndex::getFunctionSummary` —
mapping lookup, `none` when the GUID is not a key. -/
def getFunctionSummary (idx : ModuleSummaryIndex) (g : GUID) :
    Option FunctionSummary :=
  lookupFn idx.functions g

/-- Lookup in a `VirtualMethodSlot → set of GUID` association list. -/
def getImplementationsL (impls : List (VFuncSlot × List GUID))
    (slot : VFuncSlot) : List GUID :=
  ((impls.find? (fun p => p.1 == slot)).map (·.2)).getD []

/-- Modelled from the spec: `ModuleSummaryIndex::getImplementations` — the
set registered under a slot, empty when the slot is absent. -/
def getImplementations (idx : ModuleSummaryIndex) (slot : VFuncSlot) :
    List GUID :=
  getImplementationsL idx.implementations slot

/-- Modelled from the spec: `ModuleSummaryIndex::addImplementation` —
set-insert of an implementation GUID under a slot. -/
def addImplementation (idx : ModuleSummaryIndex) (slot : VFuncSlot)
    (impl : GUID) : ModuleSummaryIndex :=
  if (idx.implementations.find? (fun p => p.1 == slot)).isSome then
    { idx with implementations := idx.implementations.map fun p =>
        if p.1 = slot then (p.1, if impl ∈ p.2 then p.2 else p.2 ++ [impl])
        else p }
  else
    { idx with implementations := idx.implementations ++ [(slot, [impl])] }

/-- Modelled from the spec: `ModuleSummaryIndex::addFunctionSummary` —
map insert keyed by the summary's GUID. -/
def addFunctionSummary (idx : ModuleSummaryIndex) (fs : FunctionSummary) :
    ModuleSummaryIndex :=
  { idx with functions := idx.functions ++ [(fs.guid, fs)] }

/-- Update of the entry of one GUID of a function map, setting `live`. -/
def setLiveFns (g : GUID) (fns : List (GUID × FunctionSummary)) :
    List (GUID × FunctionSummary) :=
  fns.map fun p => if p.1 = g then (p.1, { p.2 with live := true }) else p

/-- Modelled from the spec: mutating `FS->setLive(true)` through the pointer
returned by `getFunctionSummary` — updates the entry for the GUID in place. -/
def setLiveIn (idx : ModuleSummaryIndex) (g : GUID) : ModuleSummaryIndex :=
  { idx with functions := setLiveFns g idx.functions }

/-- Modelled from the spec: mutating `FS->setPreserved(true)` through the
pointer returned by `getFunctionSummary`. -/
def setPreservedIn (idx : ModuleSummaryIndex) (g : GUID) : ModuleSummaryIndex :=
  { idx with functions := idx.functions.map fun p =>
      if p.1 = g then (p.1, { p.2 with preserved := true }) else p }

/-- Modelled from the spec: `ModuleSummaryIndex::markUsedType` — records a
type GUID into `usedTypes` (insertion sequence, newest first). -/
def markUsedType (idx : ModuleSummaryIndex) (t : GUID) : ModuleSummaryIndex :=
  { idx with usedTypes := t :: idx.usedTypes }

/-! ## `computePreservedGUIDs` (cross_module_opt_main.cpp, lines 38–49) -/

/-- The root set, `computePreservedGUIDs`: the GUID of `"main"` plus the GUID of every
preserved function summary, in insertion order (set semantics: duplicates
are not re-inserted). -/
def computePreservedGUIDs (idx : ModuleSummaryIndex) : List GUID :=
  idx.functions.foldl
    (fun s p => if p.2.preserved then (if p.1 ∈ s then s else s ++ [p.1]) else s)
    [getGUIDFromUniqueName "main"]

/-! ## `LivenessTrace` (cross_module_opt_main.cpp, lines 51–88) -/

/-- Reasons a node was enqueued, `LivenessTrace::ReasonTy`. -/
inductive ReasonTy where
  | Preserved
  | StaticReferenced
  | IndirectReferenced
deriving DecidableEq, Repr

/-- A provenance node, `LivenessTrace`: a node with nullable parent pointer
(`markedBy`), resolved symbol name (empty until `setName`), guid and
reason.  The null and non-null parent cases are the two constructors. -/
inductive LivenessTrace where
  | orphan (symbol : String) (guid : GUID) (reason : ReasonTy)
  | child (parent : LivenessTrace) (symbol : String) (guid : GUID)
      (reason : ReasonTy)
deriving DecidableEq, Repr

def LivenessTrace.markedBy : LivenessTrace → Option LivenessTrace
  | .orphan _ _ _ => none
  | .child p _ _ _ => some p

def LivenessTrace.symbol : LivenessTrace → String
  | .orphan s _ _ => s
  | .child _ s _ _ => s

def LivenessTrace.guid : LivenessTrace → GUID
  | .orphan _ g _ => g
  | .child _ _ g _ => g

def LivenessTrace.reason : LivenessTrace → ReasonTy
  | .orphan _ _ r => r
  | .child _ _ _ r => r

/-- The `LivenessTrace` constructor: symbol starts empty. -/
def LivenessTrace.mk (markedBy : Option LivenessTrace) (guid : GUID)
    (reason : ReasonTy) : LivenessTrace :=
  match markedBy with
  | none => .orphan "" guid reason
  | some p => .child p "" guid reason

/-- Name resolution, `LivenessTrace::setName`. -/
def LivenessTrace.setName : LivenessTrace → String → LivenessTrace
  | .orphan _ g r, s => .orphan s g r
  | .child p _ g r, s => .child p s g r

/-- One `" - <name-or-missing> (<guid>)\n"` line of the `dump` ancestor
walk. -/
def LivenessTrace.line (t : LivenessTrace) : String :=
  " - " ++ (if t.symbol ≠ "" then t.symbol else "**missing name**") ++
    " (" ++ toString t.guid ++ ")" ++ "\n"

/-- The ancestor lines of `LivenessTrace::dump`, starting from a node: its
own line, then its ancestors' lines (the `while (target)` walk). -/
def LivenessTrace.chainLines : LivenessTrace → String
  | .orphan s g r => (LivenessTrace.orphan s g r).line
  | .child p s g r => (LivenessTrace.child p s g r).line ++ p.chainLines

/-- Dump of a trace, `LivenessTrace::dump` (lines 66–87): the head names the target (with its
GUID only in the missing-name branch), then `"is referenced by:"` and one
line per ancestor. -/
def LivenessTrace.dump (t : LivenessTrace) : String :=
  (if t.symbol ≠ "" then t.symbol
   else "**missing name**" ++ " (" ++ toString t.guid ++ ")") ++
    "is referenced by:\n" ++
    (match t.markedBy with
     | none => ""
     | some p => p.chainLines)

/-! ## `markDeadSymbols` (cross_module_opt_main.cpp, lines 111–176) -/

/-- Slot of a virtual call, `createVFuncSlot` (lines 90–109): `none` models
`llvm_unreachable("Can't get slot for static call")` for `Direct`. -/
def createVFuncSlot (call : Call) : Option VFuncSlot :=
  match call.kind with
  | .Witness => some ⟨SlotKind.Witness, call.callee⟩
  | .VTable => some ⟨SlotKind.VTable, call.callee⟩
  | .Direct => none

/-- The mutable state of `markDeadSymbols`: the combined index, the local
`UseMarkedTypes` set, the `LiveSymbols` counter, the LIFO worklist (head =
top of stack) and the retained `dumpTarget`. -/
structure MarkState where
  index : ModuleSummaryIndex
  useMarkedTypes : List GUID
  liveSymbols : Nat
  worklist : List LivenessTrace
  dumpTarget : Option LivenessTrace
deriving DecidableEq, Repr

/-- The type-reference loop (lines 146–150): for each `typeRef`, if its GUID
is new to `UseMarkedTypes`, insert it and call `markUsedType`. -/
def markTypeRefs (tys : List GUID) (umt : List GUID)
    (idx : ModuleSummaryIndex) : List GUID × ModuleSummaryIndex :=
  tys.foldl
    (fun acc t =>
      if t ∈ acc.1 then acc else (t :: acc.1, markUsedType acc.2 t))
    (umt, idx)

/-- One iteration of the call loop (lines 151–171): push a
`StaticReferenced` child for a direct call, and an `IndirectReferenced`
child per implementation of a virtual slot.  Pushing conses onto the
worklist (head = top of the LIFO stack). -/
def pushCall (idx : ModuleSummaryIndex) (parent : LivenessTrace)
    (wl : List LivenessTrace) (call : Call) : List LivenessTrace :=
  match call.kind with
  | .Direct =>
      LivenessTrace.mk (some parent) call.callee .StaticReferenced :: wl
  | .Witness | .VTable =>
      match createVFuncSlot call with
      | some slot =>
          (getImplementations idx slot).foldl
            (fun wl impl =>
              LivenessTrace.mk (some parent) impl .IndirectReferenced :: wl)
            wl
      | none => wl

/-- The call loop (lines 151–171) over a summary's whole call list. -/
def pushCalls (idx : ModuleSummaryIndex) (parent : LivenessTrace)
    (wl : List LivenessTrace) (calls : List Call) : List LivenessTrace :=
  calls.foldl (pushCall idx parent) wl

/-- Result of one iteration of the `while` loop. -/
inductive StepResult where
  | done (s : MarkState)
  | badGUID
  | next (s : MarkState)

/-- Name resolution on the popped node (lines 130–131): the node is renamed
when the summary carries a name. -/
def renameTrace (FS : FunctionSummary) (trace : LivenessTrace) :
    LivenessTrace :=
  if FS.name ≠ "" then trace.setName FS.name else trace

/-- Retention of the dump target (lines 132–134): the popped (renamed) node
is retained when its resolved name equals the configured trace symbol. -/
def newDumpTarget (traceSym : String) (old : Option LivenessTrace)
    (FS : FunctionSummary) (trace : LivenessTrace) : Option LivenessTrace :=
  if FS.name ≠ "" ∧ traceSym = FS.name then some (renameTrace FS trace)
  else old

/-- One iteration of the worklist loop (lines 122–172).  `badGUID` models
`llvm_unreachable("Bad GUID")` when the popped GUID has no summary. -/
def markStep (traceSym : String) (s : MarkState) : StepResult :=
  match s.worklist with
  | [] => .done s
  | trace :: rest =>
    match getFunctionSummary s.index trace.guid with
    | none => .badGUID
    | some FS =>
      if FS.live then
        .next { s with
            worklist := rest,
            dumpTarget := newDumpTarget traceSym s.dumpTarget FS trace }
      else
        .next { index :=
                  (markTypeRefs FS.typeRefs s.useMarkedTypes
                    (setLiveIn s.index trace.guid)).2,
                useMarkedTypes :=
                  (markTypeRefs FS.typeRefs s.useMarkedTypes
                    (setLiveIn s.index trace.guid)).1,
                liveSymbols := s.liveSymbols + 1,
                worklist :=
                  pushCalls
                    (markTypeRefs FS.typeRefs s.useMarkedTypes
                      (setLiveIn s.index trace.guid)).2
                    (renameTrace FS trace) rest FS.calls,
                dumpTarget := newDumpTarget traceSym s.dumpTarget FS trace }

/-- Outcome of a bounded run of the worklist loop. -/
inductive MarkResult where
  | ok (s : MarkState)
  | badGUID
  | outOfFuel
deriving DecidableEq, Repr

/-- Iterate `markStep` with explicit fuel (the loop's termination is proved
separately: `markDeadSymbols_ne_outOfFuel`). -/
def runMark (traceSym : String) : Nat → MarkState → MarkResult
  | 0, _ => .outOfFuel
  | fuel + 1, s =>
    match markStep traceSym s with
    | .done s' => .ok s'
    | .badGUID => .badGUID
    | .next s' => runMark traceSym fuel s'

/-- Number of worklist pushes one call can generate. -/
def callPushes (impls : List (VFuncSlot × List GUID)) (call : Call) : Nat :=
  match call.kind with
  | .Direct => 1
  | .Witness | .VTable =>
      match createVFuncSlot call with
      | some slot => (getImplementationsL impls slot).length
      | none => 0

/-- Number of worklist pushes the call list of one summary can generate. -/
def pushBound (impls : List (VFuncSlot × List GUID)) : List Call → Nat
  | [] => 0
  | c :: cs => callPushes impls c + pushBound impls cs

/-- Weighted count of the not-yet-live entries of the function map: each
dead entry contributes one pop plus its possible pushes. -/
def deadWeight (impls : List (VFuncSlot × List GUID)) :
    List (GUID × FunctionSummary) → Nat
  | [] => 0
  | p :: ps =>
      (if p.2.live then 0 else 1 + pushBound impls p.2.calls) +
        deadWeight impls ps

/-- Loop measure: worklist length plus twice the dead weight; every
`markStep` strictly decreases it. -/
def markMeasure (s : MarkState) : Nat :=
  s.worklist.length + 2 * deadWeight s.index.implementations s.index.functions

/-- Initial state of `markDeadSymbols` (lines 113–121): push one `Preserved`
root node per preserved GUID, in order. -/
def initState (idx : ModuleSummaryIndex) (roots : List GUID) : MarkState :=
  { index := idx, useMarkedTypes := [], liveSymbols := 0,
    worklist :=
      roots.foldl (fun wl g => LivenessTrace.mk none g .Preserved :: wl) [],
    dumpTarget := none }

/-- Liveness propagation, `markDeadSymbols`: run the worklist loop to completion from the initial
state (fuel is the initial measure plus one; adequacy is proved below). -/
def markDeadSymbols (traceSym : String) (idx : ModuleSummaryIndex)
    (roots : List GUID) : MarkResult :=
  runMark traceSym (markMeasure (initState idx roots) + 1)
    (initState idx roots)

/-! ## Indexer inputs (SIL entities, modelled from the spec §4.2)

The SIL data structures consumed by `ModuleSummaryIndexer.cpp` are outside
the translated sources; they are modelled from the spec as the abstract
shapes the indexer inspects: mangled names, calling-convention and
C-reference flags, instruction classifications, key-path components,
witness-table and v-table entries. -/

/-- Modelled from the spec: the calling-convention test of
`shouldPreserveFunction` — only whether the representation is the
foreign/Objective-C-compatible method representation matters. -/
inductive FunctionReprKind where
  | objCMethod
  | swiftNative
deriving DecidableEq, Repr

/-- Modelled from the spec: the declaring context of a key-path-referenced
method — class, protocol, or anything else (a producer bug). -/
inductive DeclContextKind where
  | classContext
  | protocolContext
  | otherContext
deriving DecidableEq, Repr

/-- Modelled from the spec: one key-path pattern component — the concrete
functions and the (method, declaring-context) pairs it references, as
visited by `visitReferencedFunctionsAndMethods`. -/
structure KeyPathComponentM where
  referencedFunctions : List String
  referencedMethods : List (String × DeclContextKind)
deriving DecidableEq, Repr

/-- Modelled from the spec: the instruction classification performed by
`FunctionSummaryIndexer::indexInstruction` — a direct function reference, a
witness-method dispatch, a class-virtual dispatch, a key-path instruction,
or anything else (ignored). -/
inductive InstructionM where
  | functionRef (calleeName : String)
  | witnessMethod (memberName : String)
  | classMethod (memberName : String)
  | keyPath (pattern : List KeyPathComponentM)
  | otherInst
deriving DecidableEq, Repr

/-- Modelled from the spec: one SIL function as seen by the indexer —
mangled name, representation, C-reference flag, and its instructions. -/
structure SILFunctionM where
  name : String
  representation : FunctionReprKind := .swiftNative
  hasCReferences : Bool := false
  instructions : List InstructionM := []
deriving DecidableEq, Repr

/-- Modelled from the spec: one `SILProperty` (key-path property
descriptor) — an optional pattern component. -/
structure SILPropertyM where
  component : Option KeyPathComponentM
deriving DecidableEq, Repr

/-- Modelled from the spec: one witness-table entry — a method entry with
its requirement's mangled name and nullable witness, or a non-method
entry (skipped by the indexer). -/
inductive WitnessEntryM where
  | methodEntry (requirementName : String) (witness : Option String)
  | otherEntry
deriving DecidableEq, Repr

/-- Modelled from the spec: one witness table with the modules of its
declaring context and of its protocol, and its entries. -/
structure WitnessTableM where
  declContextModule : String
  protocolModule : String
  entries : List WitnessEntryM
deriving DecidableEq, Repr

/-- Modelled from the spec: the member kind of a v-table entry's method —
`SILDeclRef::Kind`, of which only `Deallocator` and `IVarDestroyer`
matter to the indexer. -/
inductive SILDeclRefKind where
  | deallocator
  | ivarDestroyer
  | funcKind
deriving DecidableEq, Repr

/-- Modelled from the spec: `SILVTableEntry::Kind`. -/
inductive VTableEntryKind where
  | normalEntry
  | inheritedEntry
  | overrideEntry
deriving DecidableEq, Repr

/-- Modelled from the spec: one v-table entry — implementation function
name, the method declaration's mangled name, member kind, declaring
module, and the entry kind. -/
structure VTableEntryM where
  implName : String
  methodName : String
  methodKind : SILDeclRefKind
  methodModule : String
  entryKind : VTableEntryKind
deriving DecidableEq, Repr

/-- Modelled from the spec: one v-table (its entries). -/
structure VTableM where
  entries : List VTableEntryM
deriving DecidableEq, Repr

/-- Modelled from the spec: one SIL module as seen by
`ModuleSummaryIndexer::indexModule` — name, functions, key-path property
descriptors, witness tables and v-tables, each in iteration order. -/
structure SILModuleM where
  name : String
  functions : List SILFunctionM := []
  properties : List SILPropertyM := []
  witnessTables : List WitnessTableM := []
  vtables : List VTableM := []
deriving DecidableEq, Repr

/-! ## `FunctionSummaryIndexer` (ModuleSummaryIndexer.cpp, lines 20–115) -/

/-- Append of a call edge, `FunctionSummary::addCall`. -/
def FunctionSummary.addCall (fs : FunctionSummary) (c : Call) :
    FunctionSummary :=
  { fs with calls := fs.calls ++ [c] }

/-- Direct-call indexing, `FunctionSummaryIndexer::indexDirectFunctionCall`
(lines 39–44). -/
def indexDirectFunctionCall (fs : FunctionSummary) (calleeName : String) :
    FunctionSummary :=
  fs.addCall ⟨getGUIDFromUniqueName calleeName, calleeName, .Direct⟩

/-- Indirect-call indexing,
`FunctionSummaryIndexer::indexIndirectFunctionCall` (lines 46–52): the
callee GUID is that of the member's mangled declaration name. -/
def indexIndirectFunctionCall (fs : FunctionSummary) (mangledName : String)
    (kind : CallKind) : FunctionSummary :=
  fs.addCall ⟨getGUIDFromUniqueName mangledName, mangledName, kind⟩

/-- Key-path component indexing inside `indexInstruction` (lines 73–92):
direct calls for referenced functions, virtual calls for referenced
methods classified by declaring context; `none` models
`llvm_unreachable("key path keyed by a non-class, non-protocol method")`. -/
def indexKeyPathComponent (fs : FunctionSummary) (c : KeyPathComponentM) :
    Option FunctionSummary := do
  let fs := c.referencedFunctions.foldl indexDirectFunctionCall fs
  c.referencedMethods.foldlM
    (fun fs m =>
      match m.2 with
      | .classContext => some (indexIndirectFunctionCall fs m.1 .VTable)
      | .protocolContext => some (indexIndirectFunctionCall fs m.1 .Witness)
      | .otherContext => none)
    fs

/-- Instruction indexing, `FunctionSummaryIndexer::indexInstruction`
(lines 54–93). -/
def indexInstruction (fs : FunctionSummary) (inst : InstructionM) :
    Option FunctionSummary :=
  match inst with
  | .functionRef callee => some (indexDirectFunctionCall fs callee)
  | .witnessMethod member => some (indexIndirectFunctionCall fs member .Witness)
  | .classMethod member => some (indexIndirectFunctionCall fs member .VTable)
  | .keyPath pattern => pattern.foldlM indexKeyPathComponent fs
  | .otherInst => some fs

/-- Intrinsic-preservation test, `shouldPreserveFunction` (lines 95–103):
the foreign method representation or direct native-C references. -/
def shouldPreserveFunction (F : SILFunctionM) : Bool :=
  F.representation == .objCMethod || F.hasCReferences

/-- Per-function indexing, `FunctionSummaryIndexer::indexFunction`
(lines 105–115): build the summary keyed and named by the function's
mangled name, index every instruction, then set `preserved` from
`shouldPreserveFunction`. -/
def indexFunction (F : SILFunctionM) : Option FunctionSummary := do
  let fs : FunctionSummary :=
    { guid := getGUIDFromUniqueName F.name, name := F.name }
  let fs ← F.instructions.foldlM indexInstruction fs
  return { fs with preserved := shouldPreserveFunction F }

/-! ## `ModuleSummaryIndexer` (ModuleSummaryIndexer.cpp, lines 117–253) -/

/-- Preservation of a function by name,
`ModuleSummaryIndexer::ensurePreserved(const SILFunction &)`
(lines 134–139); `none` models the failed `assert(FS)` when the GUID has no
summary. -/
def ensurePreservedFunc (idx : ModuleSummaryIndex) (name : String) :
    Option ModuleSummaryIndex :=
  let guid := getGUIDFromUniqueName name
  match getFunctionSummary idx guid with
  | none => none
  | some _ => some (setPreservedIn idx guid)

/-- Preservation of every implementation of a virtual slot,
`ModuleSummaryIndexer::ensurePreserved(const SILDeclRef &, KindTy)`
(lines 141–153): an empty implementation set is a no-op; otherwise each
implementation's summary must exist (`assert(FS)`, modelled as `none`) and
is marked preserved. -/
def ensurePreservedSlot (idx : ModuleSummaryIndex) (declName : String)
    (kind : SlotKind) : Option ModuleSummaryIndex :=
  let slot : VFuncSlot := ⟨kind, getGUIDFromUniqueName declName⟩
  (getImplementations idx slot).foldlM
    (fun idx impl =>
      match getFunctionSummary idx impl with
      | none => none
      | some _ => some (setPreservedIn idx impl))
    idx

/-- Key-path preservation, `ModuleSummaryIndexer::preserveKeyPathFunctions`
(lines 155–174). -/
def preserveKeyPathFunctions (idx : ModuleSummaryIndex) (P : SILPropertyM) :
    Option ModuleSummaryIndex := do
  match P.component with
  | none => some idx
  | some component => do
    let idx ← component.referencedFunctions.foldlM ensurePreservedFunc idx
    component.referencedMethods.foldlM
      (fun idx m =>
        match m.2 with
        | .classContext => ensurePreservedSlot idx m.1 .VTable
        | .protocolContext => ensurePreservedSlot idx m.1 .Witness
        | .otherContext => none)
      idx

/-- Witness-table indexing, `ModuleSummaryIndexer::indexWitnessTable`
(lines 176–197). -/
def indexWitnessTable (modName : String) (idx : ModuleSummaryIndex)
    (WT : WitnessTableM) : Option ModuleSummaryIndex :=
  let isPossibllyUsedExternally :=
    WT.declContextModule ≠ modName ∨ WT.protocolModule ≠ modName
  WT.entries.foldlM
    (fun idx entry =>
      match entry with
      | .otherEntry => some idx
      | .methodEntry requirementName witness =>
        match witness with
        | none => some idx
        | some witnessName =>
          let slot : VFuncSlot :=
            ⟨SlotKind.Witness, getGUIDFromUniqueName requirementName⟩
          let idx := addImplementation idx slot
            (getGUIDFromUniqueName witnessName)
          if isPossibllyUsedExternally then ensurePreservedFunc idx witnessName
          else some idx)
    idx

/-- One iteration of the `ModuleSummaryIndexer::indexVTable` entry loop
(lines 201–217): destructor entries are always preserved, override entries
of externally declared methods are preserved, and the entry registers its
implementation under the method's `VTable` slot. -/
def indexVTableEntry (modName : String) (idx : ModuleSummaryIndex)
    (entry : VTableEntryM) : Option ModuleSummaryIndex :=
  (if entry.methodKind = .deallocator ∨ entry.methodKind = .ivarDestroyer
   then ensurePreservedFunc idx entry.implName
   else some idx).bind fun idx1 =>
  (if entry.entryKind = .overrideEntry ∧ entry.methodModule ≠ modName
   then ensurePreservedFunc idx1 entry.implName
   else some idx1).map fun idx2 =>
  addImplementation idx2
    ⟨SlotKind.VTable, getGUIDFromUniqueName entry.methodName⟩
    (getGUIDFromUniqueName entry.implName)

/-- V-table indexing, `ModuleSummaryIndexer::indexVTable` (lines 199–218). -/
def indexVTable (modName : String) (idx : ModuleSummaryIndex)
    (VT : VTableM) : Option ModuleSummaryIndex :=
  VT.entries.foldlM (indexVTableEntry modName) idx

/-- Module indexing, `ModuleSummaryIndexer::indexModule` (lines 220–245):
index every function (writing `preserved` a second time with the same
`shouldPreserveFunction` value), then the key-path property descriptors,
then the witness tables, then the v-tables. -/
def indexModule (Mod : SILModuleM) : Option ModuleSummaryIndex := do
  let idx : ModuleSummaryIndex := { name := Mod.name }
  let idx ← Mod.functions.foldlM
    (fun idx F => do
      let FS ← indexFunction F
      let FS := { FS with preserved := shouldPreserveFunction F }
      return addFunctionSummary idx FS)
    idx
  let idx ← Mod.properties.foldlM preserveKeyPathFunctions idx
  let idx ← Mod.witnessTables.foldlM (indexWitnessTable Mod.name) idx
  Mod.vtables.foldlM (indexVTable Mod.name) idx

/-- The specification's single-write variant of `indexModule` (§4.2 and the
design note in §9): the per-module `setPreserved` repetition is dropped and
only the write inside `indexFunction` remains. -/
def indexModuleSingleWrite (Mod : SILModuleM) : Option ModuleSummaryIndex := do
  let idx : ModuleSummaryIndex := { name := Mod.name }
  let idx ← Mod.functions.foldlM
    (fun idx F => do
      let FS ← indexFunction F
      return addFunctionSummary idx FS)
    idx
  let idx ← Mod.properties.foldlM preserveKeyPathFunctions idx
  let idx ← Mod.witnessTables.foldlM (indexWitnessTable Mod.name) idx
  Mod.vtables.foldlM (indexVTable Mod.name) idx

/-! ## Verification-layer definitions -/

/-- Liveness of a GUID in an index: the `live` flag of its summary, `false`
when it has none. -/
def liveIn (idx : ModuleSummaryIndex) (g : GUID) : Bool :=
  ((getFunctionSummary idx g).map (·.live)).getD false

/-- Preservation of a GUID in an index: the `preserved` flag of its summary,
`false` when it has none. -/
def preservedIn (idx : ModuleSummaryIndex) (g : GUID) : Bool :=
  ((getFunctionSummary idx g).map (·.preserved)).getD false

/-- The call list recorded for a GUID, empty when it has no summary. -/
def callsIn (idx : ModuleSummaryIndex) (g : GUID) : List Call :=
  ((getFunctionSummary idx g).map (·.calls)).getD []

/-- Successor GUIDs contributed by one call edge: the callee of a `Direct`
call, and every implementation registered under the slot of a virtual
call. -/
def callSuccs (idx : ModuleSummaryIndex) (c : Call) : List GUID :=
  match c.kind with
  | .Direct => [c.callee]
  | .Witness | .VTable =>
      match createVFuncSlot c with
      | some slot => getImplementations idx slot
      | none => []

/-- Successor GUIDs of a function in the call graph. -/
def succsOf (idx : ModuleSummaryIndex) (g : GUID) : List GUID :=
  (callsIn idx g).flatMap (callSuccs idx)

/-- Reachability in the merged index: a GUID is reached when it is in the
root set or a successor (through a `Direct` edge or the `implementations`
map of a virtual edge) of a reached function. -/
inductive Reaches (idx : ModuleSummaryIndex) (roots : List GUID) :
    GUID → Prop where
  | root (g : GUID) : g ∈ roots → Reaches idx roots g
  | step (g x : GUID) : Reaches idx roots g → x ∈ succsOf idx g →
      Reaches idx roots x

/-- Erasure of the `live` flag of one summary. -/
def clearLive (fs : FunctionSummary) : FunctionSummary :=
  { fs with live := false }

/-- Erasure of every `live` flag of a function map: two maps agreeing after
erasure differ at most in their `live` flags. -/
def clearLiveAll (fns : List (GUID × FunctionSummary)) :
    List (GUID × FunctionSummary) :=
  fns.map (fun p => (p.1, clearLive p.2))

/-- Number of live entries of a function map. -/
def liveCount (fns : List (GUID × FunctionSummary)) : Nat :=
  fns.countP (fun p => p.2.live)

/-- The GUIDs carried by a worklist. -/
def wlGuids (wl : List LivenessTrace) : List GUID :=
  wl.map LivenessTrace.guid

/-- Invariant of the liveness worklist loop, relating the current state `s`
to the initial state `init` of the run with root list `roots`:
the function map agrees with the initial one up to `live` flags, the
implementations map and module name are untouched, `usedTypes` grew by a
duplicate-free block guarded by `useMarkedTypes`, liveness only grew,
every worklist GUID is reached, every live function is initially live or
reached, every successor of a newly live function is live or still queued,
and every root is live or still queued. -/
structure RunInv (init : MarkState) (roots : List GUID) (s : MarkState) :
    Prop where
  frameFn : clearLiveAll s.index.functions = clearLiveAll init.index.functions
  frameImpl : s.index.implementations = init.index.implementations
  frameName : s.index.name = init.index.name
  usedT : ∃ d, s.index.usedTypes = d ++ init.index.usedTypes ∧ d.Nodup ∧
    ∀ x ∈ d, x ∈ s.useMarkedTypes
  liveMono : ∀ g, liveIn init.index g = true → liveIn s.index g = true
  wlRooted : ∀ t ∈ s.worklist, Reaches init.index roots t.guid
  liveSound : ∀ g, liveIn s.index g = true →
    liveIn init.index g = true ∨ Reaches init.index roots g
  succClosed : ∀ g, liveIn s.index g = true → liveIn init.index g = false →
    ∀ x ∈ succsOf init.index g,
      liveIn s.index x = true ∨ x ∈ wlGuids s.worklist
  rootsCov : ∀ r ∈ roots, liveIn s.index r = true ∨ r ∈ wlGuids s.worklist

/-- Truth of `MarkResult.ok`. -/
def MarkResult.isOk : MarkResult → Bool
  | .ok _ => true
  | _ => false

/-- Monotone index evolution during the indexer passes: registered
implementations are never removed, and a `preserved` flag is never reset. -/
def IdxMono (idx idx' : ModuleSummaryIndex) : Prop :=
  (∀ slot x, x ∈ getImplementations idx slot →
    x ∈ getImplementations idx' slot) ∧
  (∀ g, preservedIn idx g = true → preservedIn idx' g = true)

/-- The dump text a run would print for its retained trace target, if any. -/
def dumpOf : MarkResult → Option String
  | .ok s => s.dumpTarget.map LivenessTrace.dump
  | _ => none

/-! ## Concrete instances used by counterexamples and witnesses -/

/-- An index with one preserved function whose direct call targets GUID 999,
absent from the index. -/
def idxC1 : ModuleSummaryIndex :=
  { functions := [(1, { guid := 1, name := "a", preserved := true,
                        calls := [⟨999, "ext", .Direct⟩] })] }

/-- A two-function index: preserved `a` (GUID 1) directly calls `b`
(GUID 2); `a` references type GUID 10. -/
def idxW : ModuleSummaryIndex :=
  { functions := [(1, { guid := 1, name := "a", preserved := true,
                        calls := [⟨2, "b", .Direct⟩], typeRefs := [10] }),
                  (2, { guid := 2, name := "b" })] }

/-- The final state of `markDeadSymbols "" idxW [1]`. -/
def finalW : MarkState :=
  { index := { name := "",
               functions := [(1, { guid := 1, name := "a", live := true,
                                   preserved := true,
                                   calls := [⟨2, "b", .Direct⟩],
                                   typeRefs := [10] }),
                             (2, { guid := 2, name := "b", live := true })],
               implementations := [],
               usedTypes := [10] },
    useMarkedTypes := [10], liveSymbols := 2, worklist := [],
    dumpTarget := none }

/-- A three-function index: preserved `a` (GUID 1) makes a witness call on
declaration GUID 5, whose slot registers implementations 2 and 3 in this
order. -/
def idxV1 : ModuleSummaryIndex :=
  { functions := [(1, { guid := 1, name := "a", preserved := true,
                        calls := [⟨5, "P.m", .Witness⟩] }),
                  (2, { guid := 2, name := "i1" }),
                  (3, { guid := 3, name := "i2" })],
    implementations := [(⟨SlotKind.Witness, 5⟩, [2, 3])] }

/-- The same index as `idxV1` with the implementation set of the slot
enumerated in the opposite order. -/
def idxV2 : ModuleSummaryIndex :=
  { functions := [(1, { guid := 1, name := "a", preserved := true,
                        calls := [⟨5, "P.m", .Witness⟩] }),
                  (2, { guid := 2, name := "i1" }),
                  (3, { guid := 3, name := "i2" })],
    implementations := [(⟨SlotKind.Witness, 5⟩, [3, 2])] }

/-- The final state of `markDeadSymbols "" idxV1 [1]`. -/
def finalV1 : MarkState :=
  { index := { name := "",
               functions := [(1, { guid := 1, name := "a", live := true,
                                   preserved := true,
                                   calls := [⟨5, "P.m", .Witness⟩] }),
                             (2, { guid := 2, name := "i1", live := true }),
                             (3, { guid := 3, name := "i2", live := true })],
               implementations := [(⟨SlotKind.Witness, 5⟩, [2, 3])],
               usedTypes := [] },
    useMarkedTypes := [], liveSymbols := 3, worklist := [],
    dumpTarget := none }

/-- The final state of `markDeadSymbols "" idxV2 [1]`. -/
def finalV2 : MarkState :=
  { index := { name := "",
               functions := [(1, { guid := 1, name := "a", live := true,
                                   preserved := true,
                                   calls := [⟨5, "P.m", .Witness⟩] }),
                             (2, { guid := 2, name := "i1", live := true }),
                             (3, { guid := 3, name := "i2", live := true })],
               implementations := [(⟨SlotKind.Witness, 5⟩, [3, 2])],
               usedTypes := [] },
    useMarkedTypes := [], liveSymbols := 3, worklist := [],
    dumpTarget := none }

/-- An index holding only the summary of a function named `d`. -/
def idxD : ModuleSummaryIndex :=
  { functions := [(getGUIDFromUniqueName "d",
                   { guid := getGUIDFromUniqueName "d", name := "d" })] }

/-- A v-table with a single deallocator entry implemented by `d`. -/
def vtD : VTableM :=
  ⟨[{ implName := "d", methodName := "C.deinit", methodKind := .deallocator,
      methodModule := "M", entryKind := .normalEntry }]⟩

/-- The index produced by `indexVTable "M" idxD vtD`. -/
def idxDout : ModuleSummaryIndex :=
  { functions := [(getGUIDFromUniqueName "d",
                   { guid := getGUIDFromUniqueName "d", name := "d",
                     preserved := true })],
    implementations := [(⟨SlotKind.VTable, getGUIDFromUniqueName "C.deinit"⟩,
                         [getGUIDFromUniqueName "d"])] }

/-- A module with one function `impl`, one key-path property descriptor
whose component references class method `m`, and one v-table registering
`impl` under method `m`'s slot. -/
def modC3 : SILModuleM :=
  { name := "M",
    functions := [{ name := "impl" }],
    properties := [⟨some ⟨[], [("m", .classContext)]⟩⟩],
    vtables := [⟨[{ implName := "impl", methodName := "m",
                    methodKind := .funcKind, methodModule := "M",
                    entryKind := .normalEntry }]⟩] }

/-! ## Basic lemmas -/

@[simp] theorem LivenessTrace.guid_mk (p : Option LivenessTrace) (g : GUID)
    (r : ReasonTy) : (LivenessTrace.mk p g r).guid = g := by
  cases p <;> rfl

@[simp] theorem LivenessTrace.guid_setName (t : LivenessTrace) (s : String) :
    (t.setName s).guid = t.guid := by
  cases t <;> rfl

@[simp] theorem guid_renameTrace (FS : FunctionSummary) (t : LivenessTrace) :
    (renameTrace FS t).guid = t.guid := by
  unfold renameTrace
  split <;> simp

theorem lookupFn_clearLiveAll (fns : List (GUID × FunctionSummary))
    (g : GUID) : lookupFn (clearLiveAll fns) g = (lookupFn fns g).map clearLive := by
  unfold lookupFn clearLiveAll
  rw [List.find?_map]
  have hcomp : ((fun p : GUID × FunctionSummary => p.1 == g) ∘
      fun p : GUID × FunctionSummary => (p.1, clearLive p.2)) =
      fun p : GUID × FunctionSummary => p.1 == g := rfl
  rw [hcomp, Option.map_map, Option.map_map]
  rfl

theorem keys_clearLiveAll (fns : List (GUID × FunctionSummary)) :
    (clearLiveAll fns).map Prod.fst = fns.map Prod.fst := by
  unfold clearLiveAll
  rw [List.map_map]
  rfl

theorem frame_lookup {fns fns' : List (GUID × FunctionSummary)}
    (h : clearLiveAll fns = clearLiveAll fns') (g : GUID) :
    (lookupFn fns g).map clearLive = (lookupFn fns' g).map clearLive := by
  have hg := congrArg (fun l => lookupFn l g) h
  simpa only [lookupFn_clearLiveAll] using hg

theorem frame_isSome {fns fns' : List (GUID × FunctionSummary)}
    (h : clearLiveAll fns = clearLiveAll fns') (g : GUID) :
    (lookupFn fns g).isSome = (lookupFn fns' g).isSome := by
  have hl := frame_lookup h g
  cases h1 : lookupFn fns g <;> cases h2 : lookupFn fns' g <;>
    simp [h1, h2] at hl ⊢

theorem frame_lookup_some {fns fns' : List (GUID × FunctionSummary)}
    (h : clearLiveAll fns = clearLiveAll fns') {g : GUID}
    {FS : FunctionSummary} (hf : lookupFn fns g = some FS) :
    ∃ FS', lookupFn fns' g = some FS' ∧ clearLive FS = clearLive FS' := by
  have hl := frame_lookup h g
  rw [hf] at hl
  cases h2 : lookupFn fns' g with
  | none => rw [h2] at hl; simp at hl
  | some FS' =>
      rw [h2] at hl
      simp only [Option.map_some', Option.some.injEq] at hl
      exact ⟨FS', rfl, hl⟩

theorem clearLive_calls {a b : FunctionSummary} (h : clearLive a = clearLive b) :
    a.calls = b.calls := by
  have := congrArg FunctionSummary.calls h
  simpa [clearLive] using this

theorem clearLive_name {a b : FunctionSummary} (h : clearLive a = clearLive b) :
    a.name = b.name := by
  have := congrArg FunctionSummary.name h
  simpa [clearLive] using this

theorem clearLive_preserved {a b : FunctionSummary}
    (h : clearLive a = clearLive b) : a.preserved = b.preserved := by
  have := congrArg FunctionSummary.preserved h
  simpa [clearLive] using this

theorem callsIn_frame {idx idx' : ModuleSummaryIndex}
    (h : clearLiveAll idx.functions = clearLiveAll idx'.functions) (g : GUID) :
    callsIn idx g = callsIn idx' g := by
  unfold callsIn getFunctionSummary
  cases h1 : lookupFn idx.functions g with
  | none =>
      have h2 := frame_isSome h g
      rw [h1] at h2
      cases h3 : lookupFn idx'.functions g with
      | none => rfl
      | some q => rw [h3] at h2; simp at h2
  | some q =>
      obtain ⟨q', hq', hcl⟩ := frame_lookup_some h h1
      rw [hq']
      simpa using clearLive_calls hcl

/-! ## Lemmas about index updates -/

@[simp] theorem implementations_setLiveIn (idx : ModuleSummaryIndex)
    (g : GUID) : (setLiveIn idx g).implementations = idx.implementations := rfl

@[simp] theorem name_setLiveIn (idx : ModuleSummaryIndex) (g : GUID) :
    (setLiveIn idx g).name = idx.name := rfl

@[simp] theorem usedTypes_setLiveIn (idx : ModuleSummaryIndex) (g : GUID) :
    (setLiveIn idx g).usedTypes = idx.usedTypes := rfl

@[simp] theorem functions_setLiveIn (idx : ModuleSummaryIndex) (g : GUID) :
    (setLiveIn idx g).functions = setLiveFns g idx.functions := rfl

@[simp] theorem implementations_setPreservedIn (idx : ModuleSummaryIndex)
    (g : GUID) :
    (setPreservedIn idx g).implementations = idx.implementations := rfl

@[simp] theorem functions_markUsedType (idx : ModuleSummaryIndex) (t : GUID) :
    (markUsedType idx t).functions = idx.functions := rfl

@[simp] theorem implementations_markUsedType (idx : ModuleSummaryIndex)
    (t : GUID) : (markUsedType idx t).implementations = idx.implementations :=
  rfl

@[simp] theorem name_markUsedType (idx : ModuleSummaryIndex) (t : GUID) :
    (markUsedType idx t).name = idx.name := rfl

@[simp] theorem functions_addImplementation (idx : ModuleSummaryIndex)
    (slot : VFuncSlot) (impl : GUID) :
    (addImplementation idx slot impl).functions = idx.functions := by
  unfold addImplementation
  split <;> rfl

theorem getFunctionSummary_setLiveIn (idx : ModuleSummaryIndex) (g x : GUID) :
    getFunctionSummary (setLiveIn idx g) x =
      (getFunctionSummary idx x).map
        (fun fs => if x = g then { fs with live := true } else fs) := by
  unfold getFunctionSummary setLiveIn setLiveFns lookupFn
  rw [List.find?_map]
  have hcomp : ((fun p : GUID × FunctionSummary => p.1 == x) ∘
      fun p : GUID × FunctionSummary =>
        if p.1 = g then (p.1, { p.2 with live := true }) else p) =
      fun p : GUID × FunctionSummary => p.1 == x := by
    funext p
    by_cases hpg : p.1 = g <;> simp [hpg]
  rw [hcomp]
  cases hf : List.find? (fun p => p.1 == x) idx.functions with
  | none => rfl
  | some q =>
      obtain ⟨q1, q2⟩ := q
      have hqx : q1 = x := by
        have := List.find?_some hf
        simpa using this
      subst hqx
      by_cases hxg : q1 = g <;> simp [hxg]

theorem getFunctionSummary_setPreservedIn (idx : ModuleSummaryIndex)
    (g x : GUID) :
    getFunctionSummary (setPreservedIn idx g) x =
      (getFunctionSummary idx x).map
        (fun fs => if x = g then { fs with preserved := true } else fs) := by
  unfold getFunctionSummary setPreservedIn lookupFn
  rw [List.find?_map]
  have hcomp : ((fun p : GUID × FunctionSummary => p.1 == x) ∘
      fun p : GUID × FunctionSummary =>
        if p.1 = g then (p.1, { p.2 with preserved := true }) else p) =
      fun p : GUID × FunctionSummary => p.1 == x := by
    funext p
    by_cases hpg : p.1 = g <;> simp [hpg]
  rw [hcomp]
  cases hf : List.find? (fun p => p.1 == x) idx.functions with
  | none => rfl
  | some q =>
      obtain ⟨q1, q2⟩ := q
      have hqx : q1 = x := by
        have := List.find?_some hf
        simpa using this
      subst hqx
      by_cases hxg : q1 = g <;> simp [hxg]

theorem liveIn_setLiveIn (idx : ModuleSummaryIndex) (g x : GUID) :
    liveIn (setLiveIn idx g) x =
      if x = g then (getFunctionSummary idx x).isSome else liveIn idx x := by
  unfold liveIn
  rw [getFunctionSummary_setLiveIn]
  cases hf : getFunctionSummary idx x <;> by_cases hxg : x = g <;>
    simp [hxg]

theorem preservedIn_setPreservedIn (idx : ModuleSummaryIndex) (g x : GUID) :
    preservedIn (setPreservedIn idx g) x =
      if x = g then (getFunctionSummary idx x).isSome
      else preservedIn idx x := by
  unfold preservedIn
  rw [getFunctionSummary_setPreservedIn]
  cases hf : getFunctionSummary idx x <;> by_cases hxg : x = g <;>
    simp [hxg]

/-! ## Lemmas about `markTypeRefs` -/

theorem markTypeRefs_nil (umt : List GUID) (idx : ModuleSummaryIndex) :
    markTypeRefs [] umt idx = (umt, idx) := rfl

theorem markTypeRefs_cons (t : GUID) (tys umt : List GUID)
    (idx : ModuleSummaryIndex) :
    markTypeRefs (t :: tys) umt idx =
      if t ∈ umt then markTypeRefs tys umt idx
      else markTypeRefs tys (t :: umt) (markUsedType idx t) := by
  unfold markTypeRefs
  rw [List.foldl_cons]
  by_cases h : t ∈ umt <;> simp [h]

theorem markTypeRefs_functions (tys : List GUID) :
    ∀ (umt : List GUID) (idx : ModuleSummaryIndex),
      (markTypeRefs tys umt idx).2.functions = idx.functions := by
  induction tys with
  | nil => intro umt idx; rfl
  | cons t tys ih =>
      intro umt idx
      rw [markTypeRefs_cons]
      by_cases h : t ∈ umt
      · rw [if_pos h]; exact ih umt idx
      · rw [if_neg h]; rw [ih]; rfl

theorem markTypeRefs_implementations (tys : List GUID) :
    ∀ (umt : List GUID) (idx : ModuleSummaryIndex),
      (markTypeRefs tys umt idx).2.implementations = idx.implementations := by
  induction tys with
  | nil => intro umt idx; rfl
  | cons t tys ih =>
      intro umt idx
      rw [markTypeRefs_cons]
      by_cases h : t ∈ umt
      · rw [if_pos h]; exact ih umt idx
      · rw [if_neg h]; rw [ih]; rfl

theorem markTypeRefs_name (tys : List GUID) :
    ∀ (umt : List GUID) (idx : ModuleSummaryIndex),
      (markTypeRefs tys umt idx).2.name = idx.name := by
  induction tys with
  | nil => intro umt idx; rfl
  | cons t tys ih =>
      intro umt idx
      rw [markTypeRefs_cons]
      by_cases h : t ∈ umt
      · rw [if_pos h]; exact ih umt idx
      · rw [if_neg h]; rw [ih]; rfl

theorem markTypeRefs_usedInv (tys : List GUID) :
    ∀ (umt : List GUID) (idx : ModuleSummaryIndex) (base d : List GUID),
      idx.usedTypes = d ++ base → d.Nodup → (∀ x ∈ d, x ∈ umt) →
      ∃ d', (markTypeRefs tys umt idx).2.usedTypes = d' ++ base ∧
        d'.Nodup ∧ ∀ x ∈ d', x ∈ (markTypeRefs tys umt idx).1 := by
  induction tys with
  | nil => intro umt idx base d h1 h2 h3; exact ⟨d, h1, h2, h3⟩
  | cons t tys ih =>
      intro umt idx base d h1 h2 h3
      rw [markTypeRefs_cons]
      by_cases h : t ∈ umt
      · rw [if_pos h]
        exact ih umt idx base d h1 h2 h3
      · rw [if_neg h]
        apply ih (t :: umt) (markUsedType idx t) base (t :: d)
        · show t :: idx.usedTypes = (t :: d) ++ base
          rw [h1]; rfl
        · exact List.nodup_cons.mpr ⟨fun hmem => h (h3 t hmem), h2⟩
        · intro x hx
          rcases List.mem_cons.mp hx with rfl | hx
          · exact List.mem_cons_self x umt
          · exact List.mem_cons_of_mem t (h3 x hx)

/-! ## Lemmas about `computePreservedGUIDs` -/

theorem mem_preservedFold (l : List (GUID × FunctionSummary)) :
    ∀ (s : List GUID) (x : GUID), x ∈ s →
      x ∈ l.foldl
        (fun s p =>
          if p.2.preserved then (if p.1 ∈ s then s else s ++ [p.1]) else s)
        s := by
  induction l with
  | nil => intro s x hx; exact hx
  | cons p l ih =>
      intro s x hx
      rw [List.foldl_cons]
      apply ih
      by_cases h1 : p.2.preserved
      · by_cases h2 : p.1 ∈ s
        · simpa [h1, h2] using hx
        · simp only [h1, if_true, h2, if_false]
          exact List.mem_append_left _ hx
      · simpa [h1] using hx

theorem main_mem_computePreservedGUIDs (idx : ModuleSummaryIndex) :
    getGUIDFromUniqueName "main" ∈ computePreservedGUIDs idx := by
  unfold computePreservedGUIDs
  exact mem_preservedFold idx.functions _ _ (List.mem_singleton.mpr rfl)

theorem preserved_mem_computePreservedGUIDs (idx : ModuleSummaryIndex)
    {p : GUID × FunctionSummary} (hp : p ∈ idx.functions)
    (hpres : p.2.preserved = true) :
    p.1 ∈ computePreservedGUIDs idx := by
  unfold computePreservedGUIDs
  obtain ⟨l1, l2, hsplit⟩ := List.append_of_mem hp
  rw [hsplit, List.foldl_append, List.foldl_cons]
  apply mem_preservedFold
  set s := List.foldl
    (fun s p =>
      if p.2.preserved then (if p.1 ∈ s then s else s ++ [p.1]) else s)
    [getGUIDFromUniqueName "main"] l1 with hs
  by_cases h2 : p.1 ∈ s
  · simp only [hpres, if_true, h2]
  · simp only [hpres, if_true, h2, if_false]
    exact List.mem_append_right _ (List.mem_singleton.mpr rfl)

/-! ## Lemmas about the worklist pushes -/

theorem foldl_cons_mem {α β : Type _} (f : α → β) (l : List α) (w : List β)
    (t : β) :
    t ∈ l.foldl (fun w x => f x :: w) w ↔ t ∈ w ∨ ∃ x ∈ l, t = f x := by
  induction l generalizing w with
  | nil => simp
  | cons a l ih =>
      rw [List.foldl_cons, ih]
      constructor
      · rintro (h | h)
        · rcases List.mem_cons.mp h with h | h
          · exact Or.inr ⟨a, List.mem_cons_self a l, h⟩
          · exact Or.inl h
        · obtain ⟨x, hx, rfl⟩ := h
          exact Or.inr ⟨x, List.mem_cons_of_mem _ hx, rfl⟩
      · rintro (h | ⟨x, hx, rfl⟩)
        · exact Or.inl (List.mem_cons_of_mem _ h)
        · rcases List.mem_cons.mp hx with rfl | hx
          · exact Or.inl (List.mem_cons_self _ _)
          · exact Or.inr ⟨x, hx, rfl⟩

theorem foldl_cons_length {α β : Type _} (f : α → β) (l : List α)
    (w : List β) :
    (l.foldl (fun w x => f x :: w) w).length = w.length + l.length := by
  induction l generalizing w with
  | nil => rfl
  | cons a l ih =>
      rw [List.foldl_cons, ih]
      simp only [List.length_cons]
      omega

theorem createVFuncSlot_witness {c : Call} (h : c.kind = .Witness) :
    createVFuncSlot c = some ⟨SlotKind.Witness, c.callee⟩ := by
  unfold createVFuncSlot
  rw [h]

theorem createVFuncSlot_vtable {c : Call} (h : c.kind = .VTable) :
    createVFuncSlot c = some ⟨SlotKind.VTable, c.callee⟩ := by
  unfold createVFuncSlot
  rw [h]

theorem mem_pushCall {idx : ModuleSummaryIndex} {parent : LivenessTrace}
    {wl : List LivenessTrace} {c : Call} {t : LivenessTrace}
    (h : t ∈ pushCall idx parent wl c) :
    t ∈ wl ∨ t.guid ∈ callSuccs idx c := by
  unfold pushCall at h
  unfold callSuccs
  cases hk : c.kind with
  | Direct =>
      rw [hk] at h
      rcases List.mem_cons.mp h with rfl | h
      · simp [hk]
      · exact Or.inl h
  | Witness =>
      rw [hk] at h
      rw [createVFuncSlot_witness hk] at h ⊢
      rcases (foldl_cons_mem _ _ _ _).mp h with h | ⟨x, hx, rfl⟩
      · exact Or.inl h
      · simpa [hk] using Or.inr hx
  | VTable =>
      rw [hk] at h
      rw [createVFuncSlot_vtable hk] at h ⊢
      rcases (foldl_cons_mem _ _ _ _).mp h with h | ⟨x, hx, rfl⟩
      · exact Or.inl h
      · simpa [hk] using Or.inr hx

theorem mem_pushCall_of_wl {idx : ModuleSummaryIndex} {parent : LivenessTrace}
    {wl : List LivenessTrace} {c : Call} {t : LivenessTrace} (h : t ∈ wl) :
    t ∈ pushCall idx parent wl c := by
  unfold pushCall
  cases hk : c.kind with
  | Direct => exact List.mem_cons_of_mem _ h
  | Witness =>
      rw [createVFuncSlot_witness hk]
      exact (foldl_cons_mem _ _ _ _).mpr (Or.inl h)
  | VTable =>
      rw [createVFuncSlot_vtable hk]
      exact (foldl_cons_mem _ _ _ _).mpr (Or.inl h)

theorem pushCall_covers {idx : ModuleSummaryIndex} {parent : LivenessTrace}
    {wl : List LivenessTrace} {c : Call} {x : GUID}
    (hx : x ∈ callSuccs idx c) :
    x ∈ wlGuids (pushCall idx parent wl c) := by
  unfold callSuccs at hx
  unfold pushCall wlGuids
  cases hk : c.kind with
  | Direct =>
      rw [hk] at hx
      simp only [hk]
      simp at hx
      subst hx
      exact List.mem_map.mpr ⟨_, List.mem_cons_self _ _, by simp⟩
  | Witness =>
      rw [hk, createVFuncSlot_witness hk] at hx
      rw [createVFuncSlot_witness hk]
      simp only [hk]
      exact List.mem_map.mpr
        ⟨LivenessTrace.mk (some parent) x .IndirectReferenced,
         (foldl_cons_mem _ _ _ _).mpr (Or.inr ⟨x, hx, rfl⟩), by simp⟩
  | VTable =>
      rw [hk, createVFuncSlot_vtable hk] at hx
      rw [createVFuncSlot_vtable hk]
      simp only [hk]
      exact List.mem_map.mpr
        ⟨LivenessTrace.mk (some parent) x .IndirectReferenced,
         (foldl_cons_mem _ _ _ _).mpr (Or.inr ⟨x, hx, rfl⟩), by simp⟩

theorem pushCall_length {idx : ModuleSummaryIndex} {parent : LivenessTrace}
    {wl : List LivenessTrace} {c : Call} :
    (pushCall idx parent wl c).length =
      wl.length + callPushes idx.implementations c := by
  unfold pushCall callPushes
  cases hk : c.kind with
  | Direct => simp [hk]
  | Witness =>
      rw [createVFuncSlot_witness hk]
      rw [foldl_cons_length (fun impl =>
        LivenessTrace.mk (some parent) impl .IndirectReferenced)]
      rfl
  | VTable =>
      rw [createVFuncSlot_vtable hk]
      rw [foldl_cons_length (fun impl =>
        LivenessTrace.mk (some parent) impl .IndirectReferenced)]
      rfl

theorem mem_pushCalls {idx : ModuleSummaryIndex} {parent : LivenessTrace}
    (calls : List Call) :
    ∀ {wl : List LivenessTrace} {t : LivenessTrace},
      t ∈ pushCalls idx parent wl calls →
      t ∈ wl ∨ t.guid ∈ calls.flatMap (callSuccs idx) := by
  induction calls with
  | nil => intro wl t h; exact Or.inl h
  | cons c cs ih =>
      intro wl t h
      unfold pushCalls at h
      rw [List.foldl_cons] at h
      rcases ih h with h | h
      · rcases mem_pushCall h with h | h
        · exact Or.inl h
        · exact Or.inr (List.mem_flatMap.mpr ⟨c, List.mem_cons_self _ _, h⟩)
      · obtain ⟨c', hc', hx⟩ := List.mem_flatMap.mp h
        exact Or.inr
          (List.mem_flatMap.mpr ⟨c', List.mem_cons_of_mem _ hc', hx⟩)

theorem mem_pushCalls_of_wl {idx : ModuleSummaryIndex}
    {parent : LivenessTrace} (calls : List Call) :
    ∀ {wl : List LivenessTrace} {t : LivenessTrace}, t ∈ wl →
      t ∈ pushCalls idx parent wl calls := by
  induction calls with
  | nil => intro wl t h; exact h
  | cons c cs ih =>
      intro wl t h
      unfold pushCalls
      rw [List.foldl_cons]
      exact ih (mem_pushCall_of_wl h)

theorem pushCalls_covers {idx : ModuleSummaryIndex} {parent : LivenessTrace}
    (calls : List Call) :
    ∀ {wl : List LivenessTrace} {x : GUID},
      x ∈ calls.flatMap (callSuccs idx) →
      x ∈ wlGuids (pushCalls idx parent wl calls) := by
  induction calls with
  | nil => intro wl x h; simp at h
  | cons c cs ih =>
      intro wl x h
      unfold pushCalls
      rw [List.foldl_cons]
      obtain ⟨c', hc', hx⟩ := List.mem_flatMap.mp h
      rcases List.mem_cons.mp hc' with rfl | hc'
      · -- x comes from the head call: it is pushed now and survives
        have hmem : x ∈ wlGuids (pushCall idx parent wl c') := pushCall_covers hx
        obtain ⟨t, ht, rfl⟩ := List.mem_map.mp hmem
        exact List.mem_map.mpr ⟨t, mem_pushCalls_of_wl cs ht, rfl⟩
      · exact ih (List.mem_flatMap.mpr ⟨c', hc', hx⟩)

theorem pushCalls_length {idx : ModuleSummaryIndex} {parent : LivenessTrace}
    (calls : List Call) :
    ∀ wl : List LivenessTrace,
      (pushCalls idx parent wl calls).length =
        wl.length + pushBound idx.implementations calls := by
  induction calls with
  | nil => intro wl; rfl
  | cons c cs ih =>
      intro wl
      unfold pushCalls at ih ⊢
      rw [List.foldl_cons, ih, pushCall_length]
      rw [show pushBound idx.implementations (c :: cs) =
        callPushes idx.implementations c + pushBound idx.implementations cs
        from rfl]
      omega

/-! ## Measure decrease and fuel adequacy -/

theorem deadWeight_setLiveFns_le (impls : List (VFuncSlot × List GUID))
    (g : GUID) (fns : List (GUID × FunctionSummary)) :
    deadWeight impls (setLiveFns g fns) ≤ deadWeight impls fns := by
  induction fns with
  | nil => exact Nat.le_refl _
  | cons p ps ih =>
      rw [show setLiveFns g (p :: ps) =
        (if p.1 = g then (p.1, { p.2 with live := true }) else p) ::
          setLiveFns g ps from rfl]
      by_cases h : p.1 = g
      · rw [if_pos h]
        show (0 : Nat) + deadWeight impls (setLiveFns g ps) ≤
          (if p.2.live then 0 else 1 + pushBound impls p.2.calls) +
            deadWeight impls ps
        exact Nat.add_le_add (Nat.zero_le _) ih
      · rw [if_neg h]
        exact Nat.add_le_add_left ih _

theorem deadWeight_setLiveFns_lt (impls : List (VFuncSlot × List GUID))
    {g : GUID} {fns : List (GUID × FunctionSummary)}
    {q : GUID × FunctionSummary}
    (hq : fns.find? (fun p => p.1 == g) = some q) (hd : q.2.live = false) :
    deadWeight impls (setLiveFns g fns) + 1 + pushBound impls q.2.calls ≤
      deadWeight impls fns := by
  induction fns with
  | nil => simp at hq
  | cons p ps ih =>
      rw [List.find?_cons] at hq
      by_cases h : p.1 = g
      · have hbeq : (p.1 == g) = true := by simp [h]
        rw [hbeq] at hq
        have hpq : p = q := by
          simpa using hq
        subst hpq
        rw [show setLiveFns g (p :: ps) =
          (if p.1 = g then (p.1, { p.2 with live := true }) else p) ::
            setLiveFns g ps from rfl, if_pos h]
        show (0 : Nat) + deadWeight impls (setLiveFns g ps) + 1 +
            pushBound impls p.2.calls ≤
          (if p.2.live then 0 else 1 + pushBound impls p.2.calls) +
            deadWeight impls ps
        rw [hd]
        have hle := deadWeight_setLiveFns_le impls g ps
        simp only [if_false, Bool.false_eq_true]
        omega
      · have hbeq : (p.1 == g) = false := by simp [h]
        rw [hbeq] at hq
        have := ih hq
        rw [show setLiveFns g (p :: ps) =
          (if p.1 = g then (p.1, { p.2 with live := true }) else p) ::
            setLiveFns g ps from rfl, if_neg h]
        show (if p.2.live then 0 else 1 + pushBound impls p.2.calls) +
            deadWeight impls (setLiveFns g ps) + 1 +
            pushBound impls q.2.calls ≤
          (if p.2.live then 0 else 1 + pushBound impls p.2.calls) +
            deadWeight impls ps
        omega

theorem markStep_done {ts : String} {s s' : MarkState}
    (h : markStep ts s = .done s') : s' = s ∧ s.worklist = [] := by
  unfold markStep at h
  cases hw : s.worklist with
  | nil =>
      rw [hw] at h
      dsimp only at h
      exact ⟨by injection h with h; exact h.symm, rfl⟩
  | cons trace rest =>
      rw [hw] at h
      dsimp only at h
      cases hfs : getFunctionSummary s.index trace.guid with
      | none => rw [hfs] at h; exact absurd h (by simp)
      | some FS =>
          rw [hfs] at h
          dsimp only at h
          by_cases hlive : FS.live
          · rw [if_pos hlive] at h; exact absurd h (by simp)
          · rw [if_neg hlive] at h; exact absurd h (by simp)

theorem markStep_next_measure {ts : String} {s s' : MarkState}
    (h : markStep ts s = .next s') : markMeasure s' < markMeasure s := by
  unfold markStep at h
  cases hw : s.worklist with
  | nil =>
      rw [hw] at h
      dsimp only at h
      exact absurd h (by simp)
  | cons trace rest =>
      rw [hw] at h
      dsimp only at h
      cases hfs : getFunctionSummary s.index trace.guid with
      | none => rw [hfs] at h; exact absurd h (by simp)
      | some FS =>
          rw [hfs] at h
          dsimp only at h
          by_cases hlive : FS.live
          · rw [if_pos hlive] at h
            injection h with h
            subst h
            unfold markMeasure
            simp only [hw, List.length_cons]
            omega
          · rw [if_neg hlive] at h
            injection h with h
            subst h
            unfold markMeasure
            simp only [hw, List.length_cons]
            rw [pushCalls_length]
            rw [markTypeRefs_implementations, markTypeRefs_functions]
            simp only [implementations_setLiveIn, functions_setLiveIn]
            obtain ⟨q, hq, hq2⟩ := Option.map_eq_some'.mp hfs
            have hdlt := deadWeight_setLiveFns_lt s.index.implementations hq
              (by rw [hq2]; simpa using hlive)
            rw [hq2] at hdlt
            omega

theorem runMark_ne_outOfFuel {ts : String} :
    ∀ (fuel : Nat) (s : MarkState), markMeasure s < fuel →
      runMark ts fuel s ≠ .outOfFuel := by
  intro fuel
  induction fuel with
  | zero => intro s h; exact absurd h (Nat.not_lt_zero _)
  | succ n ih =>
      intro s h
      unfold runMark
      cases hstep : markStep ts s with
      | done s' => simp
      | badGUID => simp
      | next s' =>
          simp only
          apply ih
          have := markStep_next_measure hstep
          omega

theorem markDeadSymbols_ne_outOfFuel (ts : String)
    (idx : ModuleSummaryIndex) (roots : List GUID) :
    markDeadSymbols ts idx roots ≠ .outOfFuel :=
  runMark_ne_outOfFuel _ _ (Nat.lt_succ_self _)

/-! ## Further congruence helpers -/

theorem liveIn_congr_fns {idx idx' : ModuleSummaryIndex}
    (h : idx.functions = idx'.functions) (x : GUID) :
    liveIn idx x = liveIn idx' x := by
  unfold liveIn getFunctionSummary
  rw [h]

theorem callSuccs_congr {idx idx' : ModuleSummaryIndex}
    (h : idx.implementations = idx'.implementations) (c : Call) :
    callSuccs idx c = callSuccs idx' c := by
  unfold callSuccs getImplementations
  rw [h]

theorem clearLiveAll_setLiveFns (g : GUID)
    (fns : List (GUID × FunctionSummary)) :
    clearLiveAll (setLiveFns g fns) = clearLiveAll fns := by
  unfold clearLiveAll setLiveFns
  rw [List.map_map]
  apply List.map_congr_left
  intro p _
  by_cases h : p.1 = g <;> simp [h, clearLive]

theorem keys_setLiveFns (g : GUID) (fns : List (GUID × FunctionSummary)) :
    (setLiveFns g fns).map Prod.fst = fns.map Prod.fst := by
  unfold setLiveFns
  rw [List.map_map]
  apply List.map_congr_left
  intro p _
  by_cases h : p.1 = g <;> simp [h]

theorem setLiveFns_of_not_mem {g : GUID} {fns : List (GUID × FunctionSummary)}
    (h : g ∉ fns.map Prod.fst) : setLiveFns g fns = fns := by
  induction fns with
  | nil => rfl
  | cons p ps ih =>
      have h1 : p.1 ≠ g := by
        intro he
        exact h (by simp [he])
      have h2 : g ∉ ps.map Prod.fst := by
        intro hm
        exact h (by simp [hm])
      show (if p.1 = g then (p.1, { p.2 with live := true }) else p) ::
        setLiveFns g ps = p :: ps
      rw [if_neg h1, ih h2]

theorem liveCount_setLiveFns {g : GUID} {fns : List (GUID × FunctionSummary)}
    {q : GUID × FunctionSummary} (hnd : (fns.map Prod.fst).Nodup)
    (hq : fns.find? (fun p => p.1 == g) = some q) (hd : q.2.live = false) :
    liveCount (setLiveFns g fns) = liveCount fns + 1 := by
  induction fns with
  | nil => simp at hq
  | cons p ps ih =>
      rw [List.find?_cons] at hq
      have hnd' : (p.1 :: ps.map Prod.fst).Nodup := by
        simpa using hnd
      have hnd1 : p.1 ∉ ps.map Prod.fst := (List.nodup_cons.mp hnd').1
      have hnd2 : (ps.map Prod.fst).Nodup := (List.nodup_cons.mp hnd').2
      by_cases h : p.1 = g
      · have hbeq : (p.1 == g) = true := by simp [h]
        rw [hbeq] at hq
        have hpq : p = q := by simpa using hq
        subst hpq
        show liveCount ((if p.1 = g then (p.1, { p.2 with live := true })
          else p) :: setLiveFns g ps) = liveCount (p :: ps) + 1
        rw [if_pos h]
        have hskip : setLiveFns g ps = ps :=
          setLiveFns_of_not_mem (h ▸ hnd1)
        rw [hskip]
        unfold liveCount
        rw [List.countP_cons, List.countP_cons]
        simp [hd]
      · have hbeq : (p.1 == g) = false := by simp [h]
        rw [hbeq] at hq
        show liveCount ((if p.1 = g then (p.1, { p.2 with live := true })
          else p) :: setLiveFns g ps) = liveCount (p :: ps) + 1
        rw [if_neg h]
        unfold liveCount
        rw [List.countP_cons, List.countP_cons]
        have := ih hnd2 hq
        unfold liveCount at this
        omega

theorem liveIn_isSome {idx : ModuleSummaryIndex} {g : GUID}
    (h : liveIn idx g = true) : (getFunctionSummary idx g).isSome = true := by
  unfold liveIn at h
  cases hf : getFunctionSummary idx g with
  | none => rw [hf] at h; simp at h
  | some fs => simp

theorem liveIn_eq_false_of_all_dead {idx : ModuleSummaryIndex}
    (h : ∀ p ∈ idx.functions, p.2.live = false) (g : GUID) :
    liveIn idx g = false := by
  unfold liveIn getFunctionSummary lookupFn
  cases hf : idx.functions.find? (fun p => p.1 == g) with
  | none => rfl
  | some q =>
      have := h q (List.mem_of_find?_eq_some hf)
      simp [this]

/-! ## Preservation of the run invariant -/

theorem markStep_next_inv {ts : String} {init s s' : MarkState}
    {roots : List GUID} (inv : RunInv init roots s)
    (h : markStep ts s = .next s') : RunInv init roots s' := by
  unfold markStep at h
  cases hw : s.worklist with
  | nil =>
      rw [hw] at h
      dsimp only at h
      exact absurd h (by simp)
  | cons trace rest =>
      rw [hw] at h
      dsimp only at h
      cases hfs : getFunctionSummary s.index trace.guid with
      | none => rw [hfs] at h; exact absurd h (by simp)
      | some FS =>
          rw [hfs] at h
          dsimp only at h
          have htrmem : trace ∈ s.worklist := by
            rw [hw]; exact List.mem_cons_self _ _
          have htr : Reaches init.index roots trace.guid :=
            inv.wlRooted trace htrmem
          have hlivetr : liveIn s.index trace.guid =
              ((some FS).map (·.live)).getD false := by
            unfold liveIn
            rw [hfs]
          by_cases hlive : FS.live
          · rw [if_pos hlive] at h
            injection h with h
            subst h
            have hlivetr' : liveIn s.index trace.guid = true := by
              rw [hlivetr]; simpa using hlive
            refine ⟨inv.frameFn, inv.frameImpl, inv.frameName, inv.usedT,
              inv.liveMono, ?_, inv.liveSound, ?_, ?_⟩
            · intro t ht
              exact inv.wlRooted t (by rw [hw]; exact List.mem_cons_of_mem _ ht)
            · intro g hg hg0 x hx
              rcases inv.succClosed g hg hg0 x hx with hl | hwlm
              · exact Or.inl hl
              · rw [hw] at hwlm
                unfold wlGuids at hwlm
                rcases List.mem_map.mp hwlm with ⟨t, htm, rfl⟩
                rcases List.mem_cons.mp htm with rfl | htm
                · exact Or.inl hlivetr'
                · exact Or.inr (List.mem_map.mpr ⟨t, htm, rfl⟩)
            · intro r hr
              rcases inv.rootsCov r hr with hl | hwlm
              · exact Or.inl hl
              · rw [hw] at hwlm
                unfold wlGuids at hwlm
                rcases List.mem_map.mp hwlm with ⟨t, htm, rfl⟩
                rcases List.mem_cons.mp htm with rfl | htm
                · exact Or.inl hlivetr'
                · exact Or.inr (List.mem_map.mpr ⟨t, htm, rfl⟩)
          · rw [if_neg hlive] at h
            injection h with h
            subst h
            have hfns : (markTypeRefs FS.typeRefs s.useMarkedTypes
                (setLiveIn s.index trace.guid)).2.functions =
                setLiveFns trace.guid s.index.functions := by
              rw [markTypeRefs_functions]
              rfl
            have himpl : (markTypeRefs FS.typeRefs s.useMarkedTypes
                (setLiveIn s.index trace.guid)).2.implementations =
                s.index.implementations := by
              rw [markTypeRefs_implementations]
              rfl
            have hnm : (markTypeRefs FS.typeRefs s.useMarkedTypes
                (setLiveIn s.index trace.guid)).2.name = s.index.name := by
              rw [markTypeRefs_name]
              rfl
            have hfns' : (markTypeRefs FS.typeRefs s.useMarkedTypes
                (setLiveIn s.index trace.guid)).2.functions =
                (setLiveIn s.index trace.guid).functions := by
              rw [hfns]
              rfl
            have hlive' : ∀ x, liveIn (markTypeRefs FS.typeRefs
                s.useMarkedTypes (setLiveIn s.index trace.guid)).2 x =
                if x = trace.guid then (getFunctionSummary s.index x).isSome
                else liveIn s.index x := by
              intro x
              rw [liveIn_congr_fns hfns']
              exact liveIn_setLiveIn s.index trace.guid x
            have hlivenew : liveIn (markTypeRefs FS.typeRefs s.useMarkedTypes
                (setLiveIn s.index trace.guid)).2 trace.guid = true := by
              rw [hlive']
              simp [hfs]
            -- the successors of the popped node, expressed over the initial
            -- index
            have hsucc : FS.calls.flatMap (callSuccs (markTypeRefs FS.typeRefs
                s.useMarkedTypes (setLiveIn s.index trace.guid)).2) =
                succsOf init.index trace.guid := by
              obtain ⟨FS', hFS', hcl⟩ := frame_lookup_some inv.frameFn hfs
              unfold succsOf callsIn getFunctionSummary
              rw [hFS']
              simp only [Option.map_some', Option.getD_some]
              rw [← clearLive_calls hcl]
              congr 1
              funext c
              exact callSuccs_congr (by rw [himpl]; exact inv.frameImpl) c
            constructor
            · rw [hfns, clearLiveAll_setLiveFns]
              exact inv.frameFn
            · rw [himpl]
              exact inv.frameImpl
            · rw [hnm]
              exact inv.frameName
            · obtain ⟨d, hd1, hd2, hd3⟩ := inv.usedT
              exact markTypeRefs_usedInv FS.typeRefs s.useMarkedTypes
                (setLiveIn s.index trace.guid) init.index.usedTypes d hd1 hd2
                hd3
            · intro g hg
              rw [hlive']
              by_cases hgt : g = trace.guid
              · simp [hgt, hfs]
              · simp only [hgt, if_false]
                exact inv.liveMono g hg
            · intro t ht
              rcases mem_pushCalls FS.calls ht with hrest | hsm
              · exact inv.wlRooted t
                  (by rw [hw]; exact List.mem_cons_of_mem _ hrest)
              · rw [hsucc] at hsm
                exact Reaches.step _ _ htr hsm
            · intro g hg
              by_cases hgt : g = trace.guid
              · subst hgt
                exact Or.inr htr
              · rw [hlive'] at hg
                simp only [hgt, if_false] at hg
                exact inv.liveSound g hg
            · intro g hg hg0 x hx
              by_cases hgt : g = trace.guid
              · subst hgt
                rw [← hsucc] at hx
                exact Or.inr (pushCalls_covers FS.calls hx)
              · have hgs : liveIn s.index g = true := by
                  rw [hlive'] at hg
                  simpa [hgt] using hg
                rcases inv.succClosed g hgs hg0 x hx with hl | hwlm
                · refine Or.inl ?_
                  rw [hlive']
                  by_cases hxt : x = trace.guid
                  · simp [hxt, hfs]
                  · simpa [hxt] using hl
                · rw [hw] at hwlm
                  unfold wlGuids at hwlm
                  rcases List.mem_map.mp hwlm with ⟨t, htm, rfl⟩
                  rcases List.mem_cons.mp htm with rfl | htm
                  · exact Or.inl hlivenew
                  · exact Or.inr (List.mem_map.mpr
                      ⟨t, mem_pushCalls_of_wl FS.calls htm, rfl⟩)
            · intro r hr
              rcases inv.rootsCov r hr with hl | hwlm
              · refine Or.inl ?_
                rw [hlive']
                by_cases hrt : r = trace.guid
                · simp [hrt, hfs]
                · simpa [hrt] using hl
              · rw [hw] at hwlm
                unfold wlGuids at hwlm
                rcases List.mem_map.mp hwlm with ⟨t, htm, rfl⟩
                rcases List.mem_cons.mp htm with rfl | htm
                · exact Or.inl hlivenew
                · exact Or.inr (List.mem_map.mpr
                    ⟨t, mem_pushCalls_of_wl FS.calls htm, rfl⟩)

/-- The invariant holds at the initial state of a run. -/
theorem runInv_init (idx : ModuleSummaryIndex) (roots : List GUID) :
    RunInv (initState idx roots) roots (initState idx roots) := by
  refine ⟨rfl, rfl, rfl, ⟨[], rfl, List.nodup_nil, by intro x hx; simp at hx⟩,
    fun g h => h, ?_, fun g h => Or.inl h, ?_, ?_⟩
  · intro t ht
    have := (foldl_cons_mem (fun g => LivenessTrace.mk none g .Preserved)
      roots [] t).mp ht
    rcases this with h | ⟨r, hr, rfl⟩
    · simp at h
    · simpa using (Reaches.root r hr : Reaches idx roots r)
  · intro g hg hg0
    rw [hg] at hg0
    simp at hg0
  · intro r hr
    refine Or.inr ?_
    unfold wlGuids
    exact List.mem_map.mpr
      ⟨LivenessTrace.mk none r .Preserved,
       (foldl_cons_mem _ _ _ _).mpr (Or.inr ⟨r, hr, rfl⟩), by simp⟩

theorem runMark_ok_inv {ts : String} {init : MarkState} {roots : List GUID} :
    ∀ (fuel : Nat) (s s' : MarkState), RunInv init roots s →
      runMark ts fuel s = .ok s' → RunInv init roots s' ∧ s'.worklist = [] := by
  intro fuel
  induction fuel with
  | zero => intro s s' _ h; simp [runMark] at h
  | succ n ih =>
      intro s s' hinv h
      unfold runMark at h
      cases hstep : markStep ts s with
      | done s2 =>
          rw [hstep] at h
          dsimp only at h
          injection h with h
          subst h
          obtain ⟨h1, h2⟩ := markStep_done hstep
          subst h1
          exact ⟨hinv, h2⟩
      | badGUID =>
          rw [hstep] at h
          exact absurd h (by simp)
      | next s2 =>
          rw [hstep] at h
          dsimp only at h
          exact ih s2 s' (markStep_next_inv hinv hstep) h

theorem markDeadSymbols_ok_inv {ts : String} {idx : ModuleSummaryIndex}
    {roots : List GUID} {s' : MarkState}
    (h : markDeadSymbols ts idx roots = .ok s') :
    RunInv (initState idx roots) roots s' ∧ s'.worklist = [] :=
  runMark_ok_inv _ _ _ (runInv_init idx roots) h

/-! ## The counter equation -/

theorem markStep_next_counter {ts : String} {s s' : MarkState}
    (hnd : (s.index.functions.map Prod.fst).Nodup)
    (h : markStep ts s = .next s') :
    s'.liveSymbols + liveCount s.index.functions =
      s.liveSymbols + liveCount s'.index.functions ∧
    s'.index.functions.map Prod.fst = s.index.functions.map Prod.fst := by
  unfold markStep at h
  cases hw : s.worklist with
  | nil =>
      rw [hw] at h
      dsimp only at h
      exact absurd h (by simp)
  | cons trace rest =>
      rw [hw] at h
      dsimp only at h
      cases hfs : getFunctionSummary s.index trace.guid with
      | none => rw [hfs] at h; exact absurd h (by simp)
      | some FS =>
          rw [hfs] at h
          dsimp only at h
          by_cases hlive : FS.live
          · rw [if_pos hlive] at h
            injection h with h
            subst h
            exact ⟨rfl, rfl⟩
          · rw [if_neg hlive] at h
            injection h with h
            subst h
            have hfns : (markTypeRefs FS.typeRefs s.useMarkedTypes
                (setLiveIn s.index trace.guid)).2.functions =
                setLiveFns trace.guid s.index.functions := by
              rw [markTypeRefs_functions]
              rfl
            obtain ⟨q, hq, hq2⟩ := Option.map_eq_some'.mp hfs
            have hcnt := liveCount_setLiveFns hnd hq
              (by rw [hq2]; simpa using hlive)
            constructor
            · show s.liveSymbols + 1 + liveCount s.index.functions =
                s.liveSymbols + liveCount (markTypeRefs FS.typeRefs
                  s.useMarkedTypes (setLiveIn s.index trace.guid)).2.functions
              rw [hfns, hcnt]
              omega
            · show (markTypeRefs FS.typeRefs s.useMarkedTypes
                (setLiveIn s.index trace.guid)).2.functions.map Prod.fst =
                s.index.functions.map Prod.fst
              rw [hfns, keys_setLiveFns]

theorem runMark_ok_counter {ts : String} (base : Nat)
    (fns0 : List (GUID × FunctionSummary)) :
    ∀ (fuel : Nat) (s s' : MarkState),
      (s.index.functions.map Prod.fst).Nodup →
      s.liveSymbols + liveCount fns0 = base + liveCount s.index.functions →
      runMark ts fuel s = .ok s' →
      s'.liveSymbols + liveCount fns0 = base + liveCount s'.index.functions := by
  intro fuel
  induction fuel with
  | zero => intro s s' _ _ h; simp [runMark] at h
  | succ n ih =>
      intro s s' hnd heq h
      unfold runMark at h
      cases hstep : markStep ts s with
      | done s2 =>
          rw [hstep] at h
          dsimp only at h
          injection h with h
          subst h
          obtain ⟨h1, _⟩ := markStep_done hstep
          subst h1
          exact heq
      | badGUID =>
          rw [hstep] at h
          exact absurd h (by simp)
      | next s2 =>
          rw [hstep] at h
          dsimp only at h
          obtain ⟨hc, hk⟩ := markStep_next_counter hnd hstep
          refine ih s2 s' (by rw [hk]; exact hnd) (by omega) h

/-! ## Completeness at a finished run -/

theorem reaches_live_final {init s' : MarkState} {roots : List GUID}
    (inv : RunInv init roots s') (hwl : s'.worklist = [])
    (hdead : ∀ g, liveIn init.index g = false) :
    ∀ g, Reaches init.index roots g → liveIn s'.index g = true := by
  intro g hg
  induction hg with
  | root g hgr =>
      rcases inv.rootsCov g hgr with h | h
      · exact h
      · rw [hwl] at h
        simp [wlGuids] at h
  | step g x hg hx ihg =>
      rcases inv.succClosed g ihg (hdead g) x hx with h | h
      · exact h
      · rw [hwl] at h
        simp [wlGuids] at h

/-! ## Lemmas about the indexer passes -/

theorem preservedIn_congr_fns {idx idx' : ModuleSummaryIndex}
    (h : idx.functions = idx'.functions) (x : GUID) :
    preservedIn idx x = preservedIn idx' x := by
  unfold preservedIn getFunctionSummary
  rw [h]

theorem getImplementations_congr_impls {idx idx' : ModuleSummaryIndex}
    (h : idx.implementations = idx'.implementations) (slot : VFuncSlot) :
    getImplementations idx slot = getImplementations idx' slot := by
  unfold getImplementations
  rw [h]

theorem idxMono_refl (idx : ModuleSummaryIndex) : IdxMono idx idx :=
  ⟨fun _ _ h => h, fun _ h => h⟩

theorem idxMono_trans {a b c : ModuleSummaryIndex} (h1 : IdxMono a b)
    (h2 : IdxMono b c) : IdxMono a c :=
  ⟨fun slot x h => h2.1 slot x (h1.1 slot x h),
   fun g h => h2.2 g (h1.2 g h)⟩

theorem mem_addImplementation_self (idx : ModuleSummaryIndex)
    (slot : VFuncSlot) (impl : GUID) :
    impl ∈ getImplementations (addImplementation idx slot impl) slot := by
  unfold addImplementation getImplementations getImplementationsL
  cases hf : idx.implementations.find? (fun p => p.1 == slot) with
  | none =>
      simp only [Option.isSome_none, Bool.false_eq_true, if_false]
      rw [List.find?_append, hf]
      simp
  | some q =>
      simp only [Option.isSome_some, if_true]
      rw [List.find?_map]
      have hcomp : ((fun p : VFuncSlot × List GUID => p.1 == slot) ∘
          fun p : VFuncSlot × List GUID =>
            if p.1 = slot then
              (p.1, if impl ∈ p.2 then p.2 else p.2 ++ [impl])
            else p) =
          fun p : VFuncSlot × List GUID => p.1 == slot := by
        funext p
        by_cases hp : p.1 = slot <;> simp [hp]
      rw [hcomp, hf]
      have hq : q.1 = slot := by
        have := List.find?_some hf
        simpa using this
      simp only [Option.map_some', Option.getD_some, hq, if_true]
      by_cases hm : impl ∈ q.2
      · simp only [hm, if_true]
      · simp only [hm, if_false]
        exact List.mem_append_right _ (List.mem_singleton.mpr rfl)

theorem addImplementation_impls_mono (idx : ModuleSummaryIndex)
    (slot : VFuncSlot) (impl : GUID) (slot' : VFuncSlot) (x : GUID)
    (h : x ∈ getImplementations idx slot') :
    x ∈ getImplementations (addImplementation idx slot impl) slot' := by
  unfold addImplementation
  unfold getImplementations getImplementationsL at h ⊢
  cases hf : idx.implementations.find? (fun p => p.1 == slot) with
  | none =>
      simp only [Option.isSome_none, Bool.false_eq_true, if_false]
      rw [List.find?_append]
      cases hf' : idx.implementations.find? (fun p => p.1 == slot') with
      | none => rw [hf'] at h; simp at h
      | some q =>
          rw [hf'] at h
          simp only [Option.map_some', Option.getD_some] at h
          simpa using h
  | some q0 =>
      simp only [Option.isSome_some, if_true]
      rw [List.find?_map]
      have hcomp : ((fun p : VFuncSlot × List GUID => p.1 == slot') ∘
          fun p : VFuncSlot × List GUID =>
            if p.1 = slot then
              (p.1, if impl ∈ p.2 then p.2 else p.2 ++ [impl])
            else p) =
          fun p : VFuncSlot × List GUID => p.1 == slot' := by
        funext p
        by_cases hp : p.1 = slot <;> simp [hp]
      rw [hcomp]
      cases hf' : idx.implementations.find? (fun p => p.1 == slot') with
      | none => rw [hf'] at h; simp at h
      | some q =>
          rw [hf'] at h
          simp only [Option.map_some', Option.getD_some] at h ⊢
          by_cases hq : q.1 = slot
          · simp only [hq, if_true]
            by_cases hm : impl ∈ q.2
            · simpa [hm] using h
            · simp only [hm, if_false]
              exact List.mem_append_left _ h
          · simp only [hq, if_false]
            exact h

theorem addImplementation_mono (idx : ModuleSummaryIndex) (slot : VFuncSlot)
    (impl : GUID) : IdxMono idx (addImplementation idx slot impl) := by
  constructor
  · exact fun slot' x h => addImplementation_impls_mono idx slot impl slot' x h
  · intro g h
    rw [preservedIn_congr_fns (functions_addImplementation idx slot impl) g]
    exact h

theorem ensurePreservedFunc_some {idx idx' : ModuleSummaryIndex} {n : String}
    (h : ensurePreservedFunc idx n = some idx') :
    idx' = setPreservedIn idx (getGUIDFromUniqueName n) ∧
    (getFunctionSummary idx (getGUIDFromUniqueName n)).isSome = true := by
  unfold ensurePreservedFunc at h
  dsimp only at h
  cases hf : getFunctionSummary idx (getGUIDFromUniqueName n) with
  | none => rw [hf] at h; simp at h
  | some fs =>
      rw [hf] at h
      dsimp only at h
      injection h with h
      exact ⟨h.symm, by simp⟩

theorem ensurePreservedFunc_mono {idx idx' : ModuleSummaryIndex} {n : String}
    (h : ensurePreservedFunc idx n = some idx') : IdxMono idx idx' := by
  obtain ⟨rfl, hsome⟩ := ensurePreservedFunc_some h
  constructor
  · intro slot x hx
    rw [getImplementations_congr_impls
      (implementations_setPreservedIn idx (getGUIDFromUniqueName n)) slot]
    exact hx
  · intro g hg
    rw [preservedIn_setPreservedIn]
    by_cases hgx : g = getGUIDFromUniqueName n
    · simpa [hgx] using hsome
    · simpa [hgx] using hg

theorem ensurePreservedFunc_self {idx idx' : ModuleSummaryIndex} {n : String}
    (h : ensurePreservedFunc idx n = some idx') :
    preservedIn idx' (getGUIDFromUniqueName n) = true := by
  obtain ⟨rfl, hsome⟩ := ensurePreservedFunc_some h
  rw [preservedIn_setPreservedIn]
  simpa using hsome

theorem foldlM_option_rel {α β : Type _} {R : β → β → Prop}
    (hrefl : ∀ b, R b b) (htr : ∀ {a b c : β}, R a b → R b c → R a c)
    {f : β → α → Option β} (hstep : ∀ b a b', f b a = some b' → R b b') :
    ∀ (l : List α) (b b' : β), l.foldlM f b = some b' → R b b' := by
  intro l
  induction l with
  | nil =>
      intro b b' h
      rw [List.foldlM_nil] at h
      injection h with h
      subst h
      exact hrefl b
  | cons a l ih =>
      intro b b' h
      rw [List.foldlM_cons] at h
      cases hfa : f b a with
      | none => rw [hfa] at h; exact Option.noConfusion h
      | some b1 =>
          rw [hfa] at h
          exact htr (hstep b a b1 hfa) (ih b1 b' h)

theorem indexVTableEntry_mono {modName : String} {idx idx' : ModuleSummaryIndex}
    {entry : VTableEntryM} (h : indexVTableEntry modName idx entry = some idx') :
    IdxMono idx idx' := by
  unfold indexVTableEntry at h
  cases h1 : (if entry.methodKind = .deallocator ∨
      entry.methodKind = .ivarDestroyer
      then ensurePreservedFunc idx entry.implName else some idx) with
  | none => rw [h1] at h; simp at h
  | some idx1 =>
      rw [h1] at h
      simp only [Option.some_bind] at h
      cases h2 : (if entry.entryKind = .overrideEntry ∧
          entry.methodModule ≠ modName
          then ensurePreservedFunc idx1 entry.implName else some idx1) with
      | none => rw [h2] at h; simp at h
      | some idx2 =>
          rw [h2] at h
          simp only [Option.map_some'] at h
          injection h with h
          subst h
          have m1 : IdxMono idx idx1 := by
            by_cases hc : entry.methodKind = .deallocator ∨
                entry.methodKind = .ivarDestroyer
            · rw [if_pos hc] at h1
              exact ensurePreservedFunc_mono h1
            · rw [if_neg hc] at h1
              injection h1 with h1
              subst h1
              exact idxMono_refl idx
          have m2 : IdxMono idx1 idx2 := by
            by_cases hc : entry.entryKind = .overrideEntry ∧
                entry.methodModule ≠ modName
            · rw [if_pos hc] at h2
              exact ensurePreservedFunc_mono h2
            · rw [if_neg hc] at h2
              injection h2 with h2
              subst h2
              exact idxMono_refl idx1
          exact idxMono_trans (idxMono_trans m1 m2)
            (addImplementation_mono idx2 _ _)

theorem indexVTableEntry_post {modName : String}
    {idx idx' : ModuleSummaryIndex} {entry : VTableEntryM}
    (h : indexVTableEntry modName idx entry = some idx') :
    getGUIDFromUniqueName entry.implName ∈ getImplementations idx'
      ⟨SlotKind.VTable, getGUIDFromUniqueName entry.methodName⟩ ∧
    ((entry.methodKind = .deallocator ∨ entry.methodKind = .ivarDestroyer) →
      preservedIn idx' (getGUIDFromUniqueName entry.implName) = true) ∧
    ((entry.entryKind = .overrideEntry ∧ entry.methodModule ≠ modName) →
      preservedIn idx' (getGUIDFromUniqueName entry.implName) = true) := by
  unfold indexVTableEntry at h
  cases h1 : (if entry.methodKind = .deallocator ∨
      entry.methodKind = .ivarDestroyer
      then ensurePreservedFunc idx entry.implName else some idx) with
  | none => rw [h1] at h; simp at h
  | some idx1 =>
      rw [h1] at h
      simp only [Option.some_bind] at h
      cases h2 : (if entry.entryKind = .overrideEntry ∧
          entry.methodModule ≠ modName
          then ensurePreservedFunc idx1 entry.implName else some idx1) with
      | none => rw [h2] at h; simp at h
      | some idx2 =>
          rw [h2] at h
          simp only [Option.map_some'] at h
          injection h with h
          subst h
          have m2 : IdxMono idx1 idx2 := by
            by_cases hc : entry.entryKind = .overrideEntry ∧
                entry.methodModule ≠ modName
            · rw [if_pos hc] at h2
              exact ensurePreservedFunc_mono h2
            · rw [if_neg hc] at h2
              injection h2 with h2
              subst h2
              exact idxMono_refl idx1
          have madd : IdxMono idx2 (addImplementation idx2
              ⟨SlotKind.VTable, getGUIDFromUniqueName entry.methodName⟩
              (getGUIDFromUniqueName entry.implName)) :=
            addImplementation_mono idx2 _ _
          refine ⟨mem_addImplementation_self idx2 _ _, ?_, ?_⟩
          · intro hc
            rw [if_pos hc] at h1
            exact madd.2 _ (m2.2 _ (ensurePreservedFunc_self h1))
          · intro hc
            rw [if_pos hc] at h2
            exact madd.2 _ (ensurePreservedFunc_self h2)

/-! ## Characterization of the final live set -/

theorem markDeadSymbols_live_iff {ts : String} {idx : ModuleSummaryIndex}
    {roots : List GUID} {s' : MarkState}
    (hdead : ∀ p ∈ idx.functions, p.2.live = false)
    (hok : markDeadSymbols ts idx roots = .ok s') (g : GUID) :
    liveIn s'.index g = true ↔ Reaches idx roots g := by
  obtain ⟨inv, hwl⟩ := markDeadSymbols_ok_inv hok
  have hdead' : ∀ x, liveIn (initState idx roots).index x = false :=
    fun x => liveIn_eq_false_of_all_dead hdead x
  constructor
  · intro h
    rcases inv.liveSound g h with h0 | h0
    · rw [hdead' g] at h0
      exact absurd h0 (by simp)
    · exact h0
  · intro h
    exact reaches_live_final inv hwl hdead' g h

theorem reaches_congr {idx idx' : ModuleSummaryIndex}
    {roots roots' : List GUID} (hf : idx.functions = idx'.functions)
    (hi : ∀ slot x, x ∈ getImplementations idx slot ↔
      x ∈ getImplementations idx' slot)
    (hr : ∀ r, r ∈ roots ↔ r ∈ roots') {g : GUID}
    (h : Reaches idx roots g) : Reaches idx' roots' g := by
  induction h with
  | root g hg => exact Reaches.root g ((hr g).mp hg)
  | step g x hg hx ih =>
      refine Reaches.step g x ih ?_
      unfold succsOf at hx ⊢
      have hcalls : callsIn idx g = callsIn idx' g := by
        unfold callsIn getFunctionSummary
        rw [hf]
      rw [← hcalls]
      obtain ⟨c, hc, hxc⟩ := List.mem_flatMap.mp hx
      refine List.mem_flatMap.mpr ⟨c, hc, ?_⟩
      unfold callSuccs at hxc ⊢
      cases hk : c.kind with
      | Direct =>
          rw [hk] at hxc
          dsimp only at hxc ⊢
          exact hxc
      | Witness =>
          rw [hk, createVFuncSlot_witness hk] at hxc
          rw [createVFuncSlot_witness hk]
          dsimp only at hxc ⊢
          exact (hi _ x).mp hxc
      | VTable =>
          rw [hk, createVFuncSlot_vtable hk] at hxc
          rw [createVFuncSlot_vtable hk]
          dsimp only at hxc ⊢
          exact (hi _ x).mp hxc

/-! ## Lemmas for the redundant preserved write -/

theorem indexFunction_preserved {F : SILFunctionM} {FS : FunctionSummary}
    (h : indexFunction F = some FS) :
    FS.preserved = shouldPreserveFunction F := by
  unfold indexFunction at h
  dsimp only at h
  cases hf : F.instructions.foldlM indexInstruction
      { guid := getGUIDFromUniqueName F.name, name := F.name } with
  | none => rw [hf] at h; exact Option.noConfusion h
  | some fs =>
      rw [hf] at h
      injection h with h
      subst h
      rfl

theorem indexModule_functions_fold (l : List SILFunctionM) :
    ∀ idx : ModuleSummaryIndex,
      l.foldlM
        (fun idx F => do
          let FS ← indexFunction F
          let FS := { FS with preserved := shouldPreserveFunction F }
          return addFunctionSummary idx FS) idx =
      l.foldlM
        (fun idx F => do
          let FS ← indexFunction F
          return addFunctionSummary idx FS) idx := by
  induction l with
  | nil => intro idx; rfl
  | cons F l ih =>
      intro idx
      rw [List.foldlM_cons, List.foldlM_cons]
      cases hf : indexFunction F with
      | none => rfl
      | some FS =>
          have hp : { FS with preserved := shouldPreserveFunction F } = FS := by
            have hpres := indexFunction_preserved hf
            cases FS
            simp only at hpres
            simp [hpres]
          show List.foldlM _ (addFunctionSummary idx
              { FS with preserved := shouldPreserveFunction F }) l =
            List.foldlM _ (addFunctionSummary idx FS) l
          rw [hp]
          exact ih _

/-! ## Implementation-set equivalence of the two C6 example indices -/

theorem implsV_equiv (slot : VFuncSlot) (x : GUID) :
    x ∈ getImplementations idxV1 slot ↔ x ∈ getImplementations idxV2 slot := by
  show x ∈ getImplementationsL [(⟨SlotKind.Witness, 5⟩, [2, 3])] slot ↔
    x ∈ getImplementationsL [(⟨SlotKind.Witness, 5⟩, [3, 2])] slot
  unfold getImplementationsL
  by_cases hs : (⟨SlotKind.Witness, 5⟩ : VFuncSlot) = slot
  · rw [List.find?_cons_of_pos _ (by simp [hs]),
      List.find?_cons_of_pos _ (by simp [hs])]
    simp only [Option.map_some', Option.getD_some, List.mem_cons,
      List.mem_singleton]
    tauto
  · rw [List.find?_cons_of_neg _ (by simp [hs]),
      List.find?_cons_of_neg _ (by simp [hs])]

/-! ## The claims -/

/-- C1 (counterexample): in `idxC1` the root function (GUID 1, preserved)
makes a `Direct` call to GUID 999, which has no summary in the index; the
claim says the run completes normally and silently skips the callee, but
the run aborts with `llvm_unreachable("Bad GUID")` instead. -/
theorem claim_C1_counterexample :
    getFunctionSummary idxC1 999 = none ∧
    (⟨999, "ext", CallKind.Direct⟩ : Call) ∈ callsIn idxC1 1 ∧
    markDeadSymbols "" idxC1 [1] = .badGUID := by
  decide

/-- C1 (amended): a `Direct` call to a GUID absent from the merged index is
not silently skipped — the engine aborts with `llvm_unreachable("Bad
GUID")` when that callee's node is popped.  Consequently, whenever
`markDeadSymbols` completes normally, every `Direct` callee of every live
function has a `FunctionSummary` in the merged index. -/
theorem claim_C1_amended (ts : String) (idx : ModuleSummaryIndex)
    (roots : List GUID) (s' : MarkState)
    (hdead : ∀ p ∈ idx.functions, p.2.live = false)
    (hok : markDeadSymbols ts idx roots = .ok s')
    (g : GUID) (hg : liveIn s'.index g = true)
    (c : Call) (hc : c ∈ callsIn idx g) (hkind : c.kind = .Direct) :
    (getFunctionSummary idx c.callee).isSome = true := by
  obtain ⟨inv, hwl⟩ := markDeadSymbols_ok_inv hok
  have hdead' : ∀ x, liveIn (initState idx roots).index x = false :=
    fun x => liveIn_eq_false_of_all_dead hdead x
  have hreach : Reaches idx roots g := by
    rcases inv.liveSound g hg with h | h
    · rw [hdead' g] at h
      exact absurd h (by simp)
    · exact h
  have hsx : c.callee ∈ succsOf idx g := by
    unfold succsOf
    refine List.mem_flatMap.mpr ⟨c, hc, ?_⟩
    unfold callSuccs
    rw [hkind]
    simp
  have hlivec : liveIn s'.index c.callee = true :=
    reaches_live_final inv hwl hdead' c.callee (Reaches.step _ _ hreach hsx)
  have h1 : (getFunctionSummary s'.index c.callee).isSome = true :=
    liveIn_isSome hlivec
  have h2 := frame_isSome inv.frameFn c.callee
  unfold getFunctionSummary at h1 ⊢
  exact h2 ▸ h1

/-- C1 (witness for the amended theorem): in `idxW` the run completes
normally, function 1 is live and directly calls GUID 2, which indeed has a
summary. -/
theorem claim_C1_amended_witness :
    (getFunctionSummary idxW (2 : GUID)).isSome = true :=
  claim_C1_amended "" idxW [1] finalW
    (by decide) (by decide) 1 (by decide) ⟨2, "b", CallKind.Direct⟩
    (by decide) (by decide)

/-- C2 (counterexample): on an empty merged index the root set is exactly
the GUID of `"main"`; the claim says the run then completes normally with
`"main"` ignored, but popping the main root aborts with
`llvm_unreachable("Bad GUID")`. -/
theorem claim_C2_counterexample :
    getFunctionSummary ({} : ModuleSummaryIndex)
      (getGUIDFromUniqueName "main") = none ∧
    markDeadSymbols "" {} (computePreservedGUIDs {}) = .badGUID := by
  decide

/-- C2 (amended): `computePreservedGUIDs` always puts the GUID of the exact
name `"main"` in the root set, alongside the GUID of every preserved
function summary; but when no summary with main's GUID exists, the
liveness run does not complete normally — it aborts with
`llvm_unreachable("Bad GUID")`. -/
theorem claim_C2_amended (ts : String) (idx : ModuleSummaryIndex)
    (habs : getFunctionSummary idx (getGUIDFromUniqueName "main") = none) :
    getGUIDFromUniqueName "main" ∈ computePreservedGUIDs idx ∧
    (∀ p ∈ idx.functions, p.2.preserved = true →
      p.1 ∈ computePreservedGUIDs idx) ∧
    (markDeadSymbols ts idx (computePreservedGUIDs idx)).isOk = false := by
  refine ⟨main_mem_computePreservedGUIDs idx,
    fun p hp hpres => preserved_mem_computePreservedGUIDs idx hp hpres, ?_⟩
  cases hres : markDeadSymbols ts idx (computePreservedGUIDs idx) with
  | badGUID => rfl
  | outOfFuel => exact absurd hres (markDeadSymbols_ne_outOfFuel ts idx _)
  | ok s' =>
      obtain ⟨inv, hwl⟩ := markDeadSymbols_ok_inv hres
      exfalso
      rcases inv.rootsCov _ (main_mem_computePreservedGUIDs idx) with hl | hm
      · have h1 := liveIn_isSome hl
        have h2 := frame_isSome inv.frameFn (getGUIDFromUniqueName "main")
        unfold getFunctionSummary at h1
        rw [h2] at h1
        have h3 : (lookupFn idx.functions
            (getGUIDFromUniqueName "main")).isSome = true := h1
        unfold getFunctionSummary at habs
        rw [habs] at h3
        simp at h3
      · rw [hwl] at hm
        simp [wlGuids] at hm

/-- C2 (witness for the amended theorem): the empty index has no summary
for main's GUID, main's GUID is in the computed root set, and the run is
not `ok`. -/
theorem claim_C2_amended_witness :
    getGUIDFromUniqueName "main" ∈
      computePreservedGUIDs ({} : ModuleSummaryIndex) ∧
    (∀ p ∈ ({} : ModuleSummaryIndex).functions, p.2.preserved = true →
      p.1 ∈ computePreservedGUIDs ({} : ModuleSummaryIndex)) ∧
    (markDeadSymbols "" {} (computePreservedGUIDs {})).isOk = false :=
  claim_C2_amended "" {} (by decide)

/-- C3 (code bug): in `modC3`, the key-path property descriptor references
class method `m`, and the module's v-table registers implementation `impl`
under `m`'s `VTable` slot; the spec (§4.2) requires every such referenced
method implementation to be preserved, but `indexModule` runs
`preserveKeyPathFunctions` before `indexVTable`, so the implementations
map is still empty during the key-path pass and `impl` ends up with
`preserved = false`. -/
theorem claim_C3_code_bug :
    (indexModule modC3).map
      (fun idx => getImplementations idx
        ⟨SlotKind.VTable, getGUIDFromUniqueName "m"⟩) =
      some [getGUIDFromUniqueName "impl"] ∧
    (indexModule modC3).map
      (fun idx => preservedIn idx (getGUIDFromUniqueName "impl")) =
      some false := by
  constructor
  · decide
  · decide

/-- C4: reachability soundness — for every merged index whose summaries
start out dead and every root set, if `markDeadSymbols` completes
normally, then every function whose live flag is true is reached from the
root set: it is in the root set (`Reaches.root`) or connected to it by a
chain in which a `Direct` call steps to its callee GUID and a
`Witness`/`VTable` call steps to each GUID registered under
`implementations[(kind, callee)]` (`Reaches.step`). -/
theorem claim_C4_reachability_soundness (ts : String)
    (idx : ModuleSummaryIndex) (roots : List GUID) (s' : MarkState)
    (hdead : ∀ p ∈ idx.functions, p.2.live = false)
    (hok : markDeadSymbols ts idx roots = .ok s')
    (g : GUID) (hg : liveIn s'.index g = true) : Reaches idx roots g := by
  obtain ⟨inv, _⟩ := markDeadSymbols_ok_inv hok
  rcases inv.liveSound g hg with h | h
  · have h' : liveIn idx g = true := h
    rw [liveIn_eq_false_of_all_dead hdead g] at h'
    exact absurd h' (by simp)
  · exact h

/-- C4 (witness): in the completed run on `idxW`, GUID 2 is live and is
reached from root 1. -/
theorem claim_C4_witness : Reaches idxW [1] 2 :=
  claim_C4_reachability_soundness "" idxW [1] finalW (by decide)
    (by decide) 2 (by decide)

/-- C5: monotonicity of liveness — across a completed run, `live` flags
transition only from false to true (every initially live summary stays
live), and the `LiveSymbols` counter equals the number of summaries whose
flag became true: final counter plus the initially live count equals the
final live count, so an already-live summary is never re-counted. -/
theorem claim_C5_monotonic_liveness (ts : String) (idx : ModuleSummaryIndex)
    (roots : List GUID) (s' : MarkState)
    (hnd : (idx.functions.map Prod.fst).Nodup)
    (hok : markDeadSymbols ts idx roots = .ok s') :
    (∀ g, liveIn idx g = true → liveIn s'.index g = true) ∧
    s'.liveSymbols + liveCount idx.functions =
      liveCount s'.index.functions := by
  obtain ⟨inv, _⟩ := markDeadSymbols_ok_inv hok
  constructor
  · exact fun g h => inv.liveMono g h
  · have hok' : runMark ts (markMeasure (initState idx roots) + 1)
        (initState idx roots) = .ok s' := hok
    have h := runMark_ok_counter 0 idx.functions _ _ _
      hnd rfl hok'
    omega

/-- C5 (witness): on `idxW` (all summaries initially dead) the final
counter is 2, matching the two newly live summaries. -/
theorem claim_C5_witness :
    finalW.liveSymbols + liveCount idxW.functions =
      liveCount finalW.index.functions :=
  (claim_C5_monotonic_liveness "" idxW [1] finalW (by decide)
    (by decide)).2

/-- C6: determinism of the live set — for a fixed merged index (same
function map; implementation sets equal as sets, in any enumeration
order) and a fixed root set (in any enumeration order), two completed runs
of `markDeadSymbols` mark exactly the same GUIDs live, regardless of the
trace configuration. -/
theorem claim_C6_determinism (ts₁ ts₂ : String)
    (idx₁ idx₂ : ModuleSummaryIndex) (roots₁ roots₂ : List GUID)
    (s₁ s₂ : MarkState)
    (hfe : idx₁.functions = idx₂.functions)
    (hie : ∀ slot x, x ∈ getImplementations idx₁ slot ↔
      x ∈ getImplementations idx₂ slot)
    (hre : ∀ r, r ∈ roots₁ ↔ r ∈ roots₂)
    (hdead : ∀ p ∈ idx₁.functions, p.2.live = false)
    (h₁ : markDeadSymbols ts₁ idx₁ roots₁ = .ok s₁)
    (h₂ : markDeadSymbols ts₂ idx₂ roots₂ = .ok s₂)
    (g : GUID) : liveIn s₁.index g = liveIn s₂.index g := by
  have hdead₂ : ∀ p ∈ idx₂.functions, p.2.live = false := by
    rw [← hfe]
    exact hdead
  have hch₁ := markDeadSymbols_live_iff hdead h₁ g
  have hch₂ := markDeadSymbols_live_iff hdead₂ h₂ g
  by_cases hr : Reaches idx₁ roots₁ g
  · rw [hch₁.mpr hr, hch₂.mpr (reaches_congr hfe hie hre hr)]
  · have n₁ : liveIn s₁.index g = false := by
      cases hv : liveIn s₁.index g
      · rfl
      · exact absurd (hch₁.mp hv) hr
    have n₂ : liveIn s₂.index g = false := by
      cases hv : liveIn s₂.index g
      · rfl
      · exact absurd (reaches_congr hfe.symm
          (fun slot x => (hie slot x).symm) (fun r => (hre r).symm)
          (hch₂.mp hv)) hr
    rw [n₁, n₂]

/-- C6 (witness): `idxV1` and `idxV2` differ only in the enumeration order
of the one implementation set; both completed runs agree on the liveness
of GUID 2. -/
theorem claim_C6_witness : liveIn finalV1.index 2 = liveIn finalV2.index 2 :=
  claim_C6_determinism "" "" idxV1 idxV2 [1] [1] finalV1 finalV2
    rfl implsV_equiv (fun r => Iff.rfl) (by decide)
    (by decide) (by decide) 2

/-- C7: for every v-table entry processed by `indexVTable`, the slot
`(VTable, GUID of the method declaration)` gains the GUID of the entry's
implementation; the implementation is additionally marked preserved when
the method kind is `Deallocator` or `IVarDestroyer`, and also when the
entry kind is `Override` and the method declaration's module differs from
the module being indexed. -/
theorem claim_C7_index_vtable (modName : String)
    (idx idx' : ModuleSummaryIndex) (VT : VTableM) (e : VTableEntryM)
    (h : indexVTable modName idx VT = some idx') (he : e ∈ VT.entries) :
    getGUIDFromUniqueName e.implName ∈ getImplementations idx'
      ⟨SlotKind.VTable, getGUIDFromUniqueName e.methodName⟩ ∧
    ((e.methodKind = .deallocator ∨ e.methodKind = .ivarDestroyer) →
      preservedIn idx' (getGUIDFromUniqueName e.implName) = true) ∧
    ((e.entryKind = .overrideEntry ∧ e.methodModule ≠ modName) →
      preservedIn idx' (getGUIDFromUniqueName e.implName) = true) := by
  obtain ⟨l1, l2, hsplit⟩ := List.append_of_mem he
  unfold indexVTable at h
  rw [hsplit, List.foldlM_append] at h
  cases ha : l1.foldlM (indexVTableEntry modName) idx with
  | none => rw [ha] at h; exact Option.noConfusion h
  | some idxa =>
      rw [ha] at h
      have h' : (e :: l2).foldlM (indexVTableEntry modName) idxa =
          some idx' := h
      rw [List.foldlM_cons] at h'
      cases hb : indexVTableEntry modName idxa e with
      | none => rw [hb] at h'; exact Option.noConfusion h'
      | some idxb =>
          rw [hb] at h'
          have hmono : IdxMono idxb idx' :=
            foldlM_option_rel idxMono_refl idxMono_trans
              (fun b a b' hstep => indexVTableEntry_mono hstep) l2 idxb idx' h'
          obtain ⟨hp1, hp2, hp3⟩ := indexVTableEntry_post hb
          exact ⟨hmono.1 _ _ hp1, fun hc => hmono.2 _ (hp2 hc),
            fun hc => hmono.2 _ (hp3 hc)⟩

/-- C7 (witness): indexing `vtD` (one deallocator entry implemented by
`d`) over `idxD` preserves `d` and registers it under the method's
`VTable` slot. -/
theorem claim_C7_witness :
    preservedIn idxDout (getGUIDFromUniqueName "d") = true :=
  (claim_C7_index_vtable "M" idxD idxDout vtD
    { implName := "d", methodName := "C.deinit",
      methodKind := .deallocator, methodModule := "M",
      entryKind := .normalEntry }
    (by decide) (by decide)).2.1 (Or.inl rfl)

/-- C8: frame property of liveness — a completed run leaves every function
summary unchanged except for its `live` flag (so `preserved`, GUID, name,
call list, type references and the key set of the function map are all
unchanged), leaves the implementations map and the module name unchanged,
and only grows `usedTypes` by a block of distinct type GUIDs, each added
at most once per run. -/
theorem claim_C8_frame (ts : String) (idx : ModuleSummaryIndex)
    (roots : List GUID) (s' : MarkState)
    (hok : markDeadSymbols ts idx roots = .ok s') :
    clearLiveAll s'.index.functions = clearLiveAll idx.functions ∧
    s'.index.implementations = idx.implementations ∧
    s'.index.name = idx.name ∧
    ∃ d, s'.index.usedTypes = d ++ idx.usedTypes ∧ d.Nodup := by
  obtain ⟨inv, _⟩ := markDeadSymbols_ok_inv hok
  obtain ⟨d, h1, h2, _⟩ := inv.usedT
  exact ⟨inv.frameFn, inv.frameImpl, inv.frameName, d, h1, h2⟩

/-- C8 (witness): the completed run on `idxW` left the implementations map
unchanged. -/
theorem claim_C8_witness : finalW.index.implementations = idxW.implementations :=
  (claim_C8_frame "" idxW [1] finalW (by decide)).2.1

/-- C9 (code bug): the dump reached through a live-trace run on `idxW`
prints `"bis referenced by:"` for the named target — no ` (GUID)` and no
space before `is referenced by:` — instead of the specified
`"<sym> (GUID) is referenced by:"`; the ancestor lines and the
`**missing name**` fallback do follow the specified
`" - <name> (<GUID>)"` shape. -/
theorem claim_C9_code_bug :
    dumpOf (markDeadSymbols "b" idxW [1]) =
      some "bis referenced by:\n - a (1)\n" ∧
    (LivenessTrace.child (.orphan "" 7 .Preserved) "f" 3
        .StaticReferenced).dump =
      "fis referenced by:\n - **missing name** (7)\n" := by
  constructor
  · rfl
  · rfl

/-- C10: the second `setPreserved` write in `indexModule` (repeating the
write already performed at the end of `indexFunction`, with the same
`shouldPreserveFunction` value for the same function) is redundant: the
module summary produced with both writes equals the one produced with
only the indexer-side write, for every module. -/
theorem claim_C10_redundant_write (Mod : SILModuleM) :
    indexModule Mod = indexModuleSingleWrite Mod := by
  unfold indexModule indexModuleSingleWrite
  dsimp only
  rw [indexModule_functions_fold]

end ModuleSummary
